import Mathlib

/-!
Verification of the max-flow algorithms of TCSS543_FinalProject.

The Python code represents a capacity graph as a dict of dicts
(node -> neighbour -> integer capacity).  We embed dicts as association
lists, which preserve the insertion order that Python dicts guarantee;
lookups of absent keys are modelled by `Option` (and, where the Python
code is only ever called with the key present, by a default value, with
the presence recorded as a hypothesis of the theorems).  Loops are
modelled by structural recursion on an explicit fuel parameter (one unit
per loop iteration); `none` means the fuel ran out, so a result `some r`
is the value the Python loop returns.
-/

/-- Node identifiers: Python uses strings. -/
abbrev Node := String

/-- One adjacency dict: neighbour node -> integer capacity, in insertion order. -/
abbrev Adj := List (Node × Int)

/-- A graph: node -> adjacency dict, in insertion order. -/
abbrev Graph := List (Node × Adj)

/-- Association-list lookup (Python `d[k]` when present / `k in d` tests). -/
def aget {β : Type} : List (Node × β) → Node → Option β
  | [], _ => none
  | (k, x) :: rest, v => if k = v then some x else aget rest v

/-- Adjacency dict of a node, `[]` when the node is not a key. -/
def gget (g : Graph) (u : Node) : Adj := (aget g u).getD []

/-- The capacity stored on edge (u, v); 0 when absent. -/
def capAt (g : Graph) (u v : Node) : Int := (aget (gget g u) v).getD 0

/-- The keys of the graph dict, in insertion order (Python `list(d.keys())`). -/
def gkeys (g : Graph) : List Node := g.map Prod.fst

/-- Python `d[k] = x`: replace the value of an existing key in place,
or append a fresh key at the end (dict insertion-order semantics). -/
def aset {β : Type} : List (Node × β) → Node → β → List (Node × β)
  | [], v, x => [(v, x)]
  | (k, y) :: rest, v, x => if k = v then (v, x) :: rest else (k, y) :: aset rest v x

/-- Apply `f` to the value of key `v` if present (callers have `v` present). -/
def amod {β : Type} : List (Node × β) → Node → (β → β) → List (Node × β)
  | [], _, _ => []
  | (k, y) :: rest, v, f =>
    if k = v then (k, f y) :: amod rest v f else (k, y) :: amod rest v f

/-- Python `graph[u][v] = c` at a point where `u` is a key of `graph`. -/
def setEdge (g : Graph) (u v : Node) (c : Int) : Graph :=
  amod g u (fun a => aset a v c)

/-- Python `if u not in graph: graph[u] = {}`. -/
def ensureKey (g : Graph) (u : Node) : Graph :=
  if (aget g u).isSome then g else g ++ [(u, [])]

/-- Python `graph[u][v] += k` at a point where both keys are present. -/
def incEdge (g : Graph) (u v : Node) (k : Int) : Graph :=
  amod g u (fun a => amod a v (fun c => c + k))

/-- The running bottleneck of the depth-first search: `float('inf')` at the
start, an integer once an edge has been taken. -/
inductive Cap where
  | inf : Cap
  | num : Int → Cap
deriving DecidableEq, Repr

/-- Python `min(flow, capacity)` where `flow` may be `float('inf')`. -/
def capMin : Cap → Int → Cap
  | Cap.inf, c => Cap.num c
  | Cap.num f, c => Cap.num (min f c)

/-- A stack entry of `augmentedPath`: (node, bottleneck so far, edge list taken). -/
abbrev Entry := Node × Cap × List (Node × Node)

/-- The batch of stack entries one loop iteration of `augmentedPath` appends
(FordFulkerson.py lines 13-17): the neighbours of the popped node with
positive residual capacity that are not in the visited set, each carrying
`min(flow, capacity)` and the extended path. -/
def dfsPushes (g : Graph) (u : Node) (f : Cap) (p : List (Node × Node))
    (visited1 : List Node) : List Entry :=
  ((gget g u).filter
      (fun vc => decide (0 < vc.2) && !(visited1.contains vc.1))).map
    (fun vc => (vc.1, capMin f vc.2, p ++ [(u, vc.1)]))

/-- The loop of `augmentedPath` (FordFulkerson.py lines 6-18).  The stack is a
list with its head as the top; Python `stack.append`s the admitted neighbours
in adjacency order and `pop()`s from the end, so one iteration prepends the
reversed batch of pushes.  `visited.add` happens when a node is popped, before
its neighbours are scanned.  Fuel counts loop iterations. -/
def dfsLoop (g : Graph) (t : Node) :
    Nat → List Entry → List Node → Option (Option (List (Node × Node)) × Cap)
  | _, [], _ => some (none, Cap.num 0)
  | 0, _ :: _, _ => none
  | fuel + 1, (u, f, p) :: stack, visited =>
    if u = t then some (some p, f)
    else dfsLoop g t fuel
      ((dfsPushes g u f p (u :: visited)).reverse ++ stack) (u :: visited)

/-- `augmentedPath(residualgraph, s, t)` of FordFulkerson.py: depth-first
search for an s-t path through edges of strictly positive residual capacity.
Returns `(None, 0)` when no path exists. -/
def augmentedPath (g : Graph) (s t : Node) (fuel : Nat) :
    Option (Option (List (Node × Node)) × Cap) :=
  dfsLoop g t fuel [(s, Cap.inf, [])] []

/-- The loop of `augmentedPathWithDelta` (ScalingFordFulkerson.py lines 20-39):
identical to `dfsLoop` except an edge qualifies only when its residual
capacity is at least `delta`. -/
def dfsLoopDelta (g : Graph) (t : Node) (delta : Int) :
    Nat → List Entry → List Node → Option (Option (List (Node × Node)) × Cap)
  | _, [], _ => some (none, Cap.num 0)
  | 0, _ :: _, _ => none
  | fuel + 1, (u, f, p) :: stack, visited =>
    if u = t then some (some p, f)
    else
      let visited1 := u :: visited
      let pushes := ((gget g u).filter
          (fun vc => decide (delta ≤ vc.2) && !(visited1.contains vc.1))).map
          (fun vc => (vc.1, capMin f vc.2, p ++ [(u, vc.1)]))
      dfsLoopDelta g t delta fuel (pushes.reverse ++ stack) visited1

/-- `augmentedPathWithDelta(residualgraph, s, t, delta)`. -/
def augmentedPathWithDelta (g : Graph) (s t : Node) (delta : Int) (fuel : Nat) :
    Option (Option (List (Node × Node)) × Cap) :=
  dfsLoopDelta g t delta fuel [(s, Cap.inf, [])] []

/-- The first pass of the residual-graph build (FordFulkerson.py lines 24-27):
`residualgraph` starts empty and every edge of the input graph is copied in. -/
def buildCopy (g : Graph) : Graph :=
  g.foldl (fun res ua =>
    let res1 := aset res ua.1 []
    ua.2.foldl (fun res2 vc => setEdge res2 ua.1 vc.1 vc.2) res1) []

/-- The second pass (FordFulkerson.py lines 29-34): for every edge (u, v)
already present, make `v` a key and give it a reverse arc `(v, u)` of
capacity 0 unless an edge `(v, u)` already exists.  The outer loop iterates
the key snapshot of the graph as built by the first pass; the inner loop
iterates the neighbours of `u` at the time `u` is processed. -/
def addRev1 (g2 : Graph) (u v : Node) : Graph :=
  let g3 := ensureKey g2 v
  if (aget (gget g3 v) u).isSome then g3 else setEdge g3 v u 0

def addReverse (g0 : Graph) : Graph :=
  (gkeys g0).foldl (fun g u =>
    ((gget g u).map Prod.fst).foldl (fun g2 v => addRev1 g2 u v) g) g0

/-- Building the residual graph from the input capacity graph, both passes. -/
def buildResidual (g : Graph) : Graph := addReverse (buildCopy g)

/-- The augmentation update (FordFulkerson.py lines 41-43 and
ScalingFordFulkerson.py lines 81-83, which are the same code): for every
edge (u, v) on the path, `residualgraph[u][v] -= flow` and
`residualgraph[v][u] += flow`. -/
def augment (g : Graph) (p : List (Node × Node)) (d : Int) : Graph :=
  p.foldl (fun g e => incEdge (incEdge g e.1 e.2 (-d)) e.2 e.1 d) g

/-- The main loop of `fordFulkerson` (FordFulkerson.py lines 35-43).  The
search itself is given the remaining fuel.  A bottleneck of `Cap.inf` can
only arise when source equals sink, where the Python loop never terminates
on a float infinity; we return `none` there as for exhausted fuel. -/
def ffLoop : Nat → Graph → Int → Option Int
  | 0, _, _ => none
  | fuel + 1, g, maxflow =>
    match augmentedPath g "s" "t" fuel with
    | none => none
    | some (path, flow) =>
      if flow = Cap.num 0 then some maxflow
      else
        match path, flow with
        | some p, Cap.num d => ffLoop fuel (augment g p d) (maxflow + d)
        | _, _ => none

/-- `fordFulkerson(graph)` of src/Algorithms/FordFulkerson.py: build the
residual graph, then augment until no path remains; returns the total flow. -/
def fordFulkerson (graph : Graph) (fuel : Nat) : Option Int :=
  ffLoop fuel (buildResidual graph) 0

/-- The doubling loop of `compute_initial_delta`
(ScalingFordFulkerson.py lines 44-46): `while delta * 2 <= maxcap: delta *= 2`. -/
def deltaLoop (maxcap : Int) (delta : Int) (hd : 0 < delta) : Int :=
  if h : delta * 2 ≤ maxcap then deltaLoop maxcap (delta * 2) (by omega) else delta
termination_by (maxcap - delta).toNat
decreasing_by omega

/-- `compute_initial_delta(graph)` (ScalingFordFulkerson.py lines 42-47):
`maxcap = max(graph["s"].values()); delta = 1; while delta * 2 <= maxcap:
delta *= 2; return delta`.  A missing key "s" (KeyError) or an empty value
list (ValueError from `max`) makes the Python call raise: `none`. -/
def compute_initial_delta (g : Graph) : Option Int :=
  match aget g "s" with
  | none => none
  | some adjs =>
    match adjs.map Prod.snd with
    | [] => none
    | c :: cs => some (deltaLoop (cs.foldl max c) 1 (by omega))

/-- The nested loops of `scalingFordFulkerson` (lines 72-85): while
`delta >= 1`, repeatedly search with threshold `delta` and augment; when no
delta-eligible path remains, halve delta.  Fuel counts inner iterations. -/
def scalLoop : Nat → Graph → Int → Int → Option Int
  | 0, _, _, _ => none
  | fuel + 1, g, maxflow, delta =>
    if 1 ≤ delta then
      match augmentedPathWithDelta g "s" "t" delta fuel with
      | none => none
      | some (path, flow) =>
        if flow = Cap.num 0 then scalLoop fuel g maxflow (delta / 2)
        else
          match path, flow with
          | some p, Cap.num d => scalLoop fuel (augment g p d) (maxflow + d) delta
          | _, _ => none
    else some maxflow

/-- `scalingFordFulkerson(graph)` of src/Algorithms/ScalingFordFulkerson.py:
residual graph built exactly as in `fordFulkerson`, initial delta from
`compute_initial_delta` (a crash there is `none`), then the scaling loops. -/
def scalingFordFulkerson (graph : Graph) (fuel : Nat) : Option Int :=
  match compute_initial_delta graph with
  | none => none
  | some delta => scalLoop fuel (buildResidual graph) 0 delta

/-! ## Preflow-push (src/Algorithms/PreflowPush.py)

The class state: `flow` (defaultdict of defaultdicts, default 0), `excess`
and `height` (defaultdicts, default 0).  We model the defaultdicts as
association lists with a default-0 lookup; assignment replaces in place or
appends, exactly like dict assignment. -/

/-- Preflow-push mutable state: flow, excess, height. -/
structure PPState where
  flow : List ((Node × Node) × Int)
  excess : List (Node × Int)
  height : List (Node × Nat)
deriving DecidableEq, Repr

/-- Lookup in a defaultdict keyed by pairs of nodes (default 0). -/
def fget : List ((Node × Node) × Int) → Node → Node → Int
  | [], _, _ => 0
  | (k, x) :: rest, u, v => if k = (u, v) then x else fget rest u v

/-- Assignment in a defaultdict keyed by pairs of nodes. -/
def fset : List ((Node × Node) × Int) → Node → Node → Int →
    List ((Node × Node) × Int)
  | [], u, v, x => [((u, v), x)]
  | (k, y) :: rest, u, v, x =>
    if k = (u, v) then ((u, v), x) :: rest else (k, y) :: fset rest u v x

/-- Lookup in a node-keyed defaultdict (default 0 for `Int`, 0 for `Nat`). -/
def xget {β : Type} [Zero β] : List (Node × β) → Node → β
  | [], _ => 0
  | (k, x) :: rest, u => if k = u then x else xget rest u

/-- Assignment in a node-keyed defaultdict. -/
def xset {β : Type} : List (Node × β) → Node → β → List (Node × β)
  | [], u, x => [(u, x)]
  | (k, y) :: rest, u, x => if k = u then (u, x) :: rest else (k, y) :: xset rest u x

/-- `_push(u, v)` (PreflowPush.py lines 109-132): move
`delta = min(excess[u], graph[u][v] - flow[u][v])` units from u to v. -/
def ppPush (g : Graph) (st : PPState) (u v : Node) : PPState :=
  let residual := capAt g u v - fget st.flow u v
  let delta := min (xget st.excess u) residual
  { flow := fset (fset st.flow u v (fget st.flow u v + delta)) v u
      (fget (fset st.flow u v (fget st.flow u v + delta)) v u - delta)
    excess := xset (xset st.excess u (xget st.excess u - delta)) v
      (xget (xset st.excess u (xget st.excess u - delta)) v + delta)
    height := st.height }

/-- `_relabel(u)` (PreflowPush.py lines 134-152): set `height[u]` to one more
than the minimum height of the neighbours with positive residual capacity;
silently a no-op when there is no such neighbour (`min_height` stays inf). -/
def ppRelabel (g : Graph) (st : PPState) (u : Node) : PPState :=
  let cands := ((gget g u).filter
      (fun vc => decide (0 < vc.2 - fget st.flow u vc.1))).map
      (fun vc => xget st.height vc.1)
  match cands with
  | [] => st
  | h0 :: hs => { st with height := xset st.height u (hs.foldl Nat.min h0 + 1) }

/-- The push scan of `_discharge` (lines 161-173): try every neighbour in
adjacency order, pushing whenever residual capacity is positive and
`height[u] == height[v] + 1`; `break` out when the excess hits 0.  Returns
the updated state and the `pushed` flag. -/
def pushPass (g : Graph) (u : Node) : PPState → Bool → List (Node × Int) → PPState × Bool
  | st, pushed, [] => (st, pushed)
  | st, pushed, (v, c) :: rest =>
    if xget st.excess u = 0 then (st, pushed)
    else if 0 < c - fget st.flow u v ∧ xget st.height u = xget st.height v + 1 then
      pushPass g u (ppPush g st u v) true rest
    else pushPass g u st pushed rest

/-- One iteration of the `while self.excess[u] > 0` loop of `_discharge`
(lines 159-177): scan pushes; if none happened and the excess is still
positive, relabel once. -/
def dischargeBody (g : Graph) (st : PPState) (u : Node) : PPState :=
  let r := pushPass g u st false (gget g u)
  if r.2 = false ∧ 0 < xget r.1.excess u then ppRelabel g r.1 u else r.1

/-- `_discharge(u)`: iterate `dischargeBody` while `excess[u] > 0`.
Fuel counts iterations; `none` means the loop had not terminated yet. -/
def discharge (g : Graph) : Nat → PPState → Node → Option PPState
  | 0, st, u => if 0 < xget st.excess u then none else some st
  | fuel + 1, st, u =>
    if 0 < xget st.excess u then discharge g fuel (dischargeBody g st u) u else some st

/-- `_initialize_preflow` (lines 89-107): `height[source] = n`, then every
positive-capacity edge out of the source is saturated: `flow[s][v] = c`,
`flow[v][s] = -c`, `excess[v] = c`, `excess[s] -= c`. -/
def initPreflow (g : Graph) (source : Node) : PPState :=
  let n := (gkeys g).length
  (gget g source).foldl (fun st vc =>
    if 0 < vc.2 then
      let fl := fset (fset st.flow source vc.1 vc.2) vc.1 source (-vc.2)
      let ex1 := xset st.excess vc.1 vc.2
      { st with flow := fl, excess := xset ex1 source (xget ex1 source - vc.2) }
    else st)
    { flow := [], excess := [], height := xset [] source n }

/-- The `while active:` loop of `max_flow` (lines 194-213): pop the head;
skip it if its excess is 0; otherwise discharge it (sharing the remaining
fuel), re-queue it at the front if its height grew, then append the
neighbours that are now active and not already queued. -/
def ppMainLoop (g : Graph) (source sink : Node) :
    Nat → PPState → List Node → Option Int
  | _, st, [] => some (xget st.excess sink)
  | 0, _, _ :: _ => none
  | fuel + 1, st, u :: rest =>
    if xget st.excess u = 0 then ppMainLoop g source sink fuel st rest
    else
      match discharge g fuel st u with
      | none => none
      | some st1 =>
        let active1 := if xget st.height u < xget st1.height u then u :: rest else rest
        let active2 := (gget g u).foldl (fun acc vc =>
          if vc.1 ≠ source ∧ vc.1 ≠ sink ∧ 0 < xget st1.excess vc.1 ∧ !(acc.contains vc.1)
          then acc ++ [vc.1] else acc) active1
        ppMainLoop g source sink fuel st1 active2

/-- `PreflowPush(graph, source, sink).max_flow()` (lines 60-216): initialise
the preflow, queue the active vertices in vertex order, run the main loop,
and return `excess[sink]`. -/
def ppMaxFlow (g : Graph) (source sink : Node) (fuel : Nat) : Option Int :=
  let st0 := initPreflow g source
  let active0 := (gkeys g).filter
    (fun v => decide (v ≠ source) && decide (v ≠ sink) && decide (0 < xget st0.excess v))
  ppMainLoop g source sink fuel st0 active0

/-! ## Graph ingestion (src/Algorithms/Graphinjest.py) -/

/-- Helper for `pysplit`: walk the characters, accumulating the current
token in reverse; a whitespace character ends the token (if any). -/
def pysplitAux : List Char → List Char → List String
  | [], [] => []
  | [], acc => [String.mk acc.reverse]
  | c :: rest, acc =>
    if c.isWhitespace then
      match acc with
      | [] => pysplitAux rest []
      | _ => String.mk acc.reverse :: pysplitAux rest []
    else pysplitAux rest (c :: acc)

/-- Python `line.strip().split()`: split on whitespace runs, no empty tokens
(splitting on whitespace already discards the leading and trailing runs that
`strip()` removes). -/
def pysplit (line : String) : List String := pysplitAux line.data []

/-- Python `int(tok)` restricted to the shapes that occur in graph files: an
optional sign followed by decimal digits; `none` models the `ValueError`. -/
def pyint (tok : String) : Option Int :=
  match tok.data with
  | [] => none
  | c :: rest =>
    let ds := if c = '-' ∨ c = '+' then rest else c :: rest
    if ds ≠ [] ∧ ds.all Char.isDigit then
      some (if c = '-' then -((ds.foldl (fun acc d => acc * 10 + (d.toNat - 48)) 0 : Nat) : Int)
        else ((ds.foldl (fun acc d => acc * 10 + (d.toNat - 48)) 0 : Nat) : Int))
    else none

/-- The two ways `load_graph` can raise: the explicit
`ValueError(f"Error on line {line_num}: '{line.strip()}' ...")` carrying the
1-based line number and the stripped raw line, and the `ValueError` that
`int(parts[2])` raises on a non-numeric capacity token. -/
inductive LoadErr where
  | parse (lineNum : Nat) (raw : String) : LoadErr
  | intErr (lineNum : Nat) (tok : String) : LoadErr
deriving DecidableEq, Repr

/-- The loop of `load_graph` (Graphinjest.py lines 28-47), over the file's
lines with 1-based numbering: reject lines whose token count is not 3, parse
the capacity, create missing node entries, set the forward edge, count it,
and add a 0-capacity reverse arc when absent. -/
def loadLoop : List String → Nat → Graph → Nat → Except LoadErr (Graph × Nat × Nat)
  | [], _, g, ec => Except.ok (g, (gkeys g).length, ec)
  | line :: rest, i, g, ec =>
    match pysplit line with
    | [u, v, tok] =>
      match pyint tok with
      | none => Except.error (LoadErr.intErr (i + 1) tok)
      | some c =>
        let g1 := ensureKey g u
        let g2 := ensureKey g1 v
        let g3 := setEdge g2 u v c
        let g4 := if (aget (gget g3 v) u).isSome then g3 else setEdge g3 v u 0
        loadLoop rest (i + 1) g4 (ec + 1)
    | _ => Except.error (LoadErr.parse (i + 1) line.trim)

/-- `load_graph(path)` of Graphinjest.py, over the list of lines of the file:
returns `(graph, num_nodes, edge_count)` or the first error raised. -/
def load_graph (lines : List String) : Except LoadErr (Graph × Nat × Nat) :=
  loadLoop lines 0 [] 0

/-! ## The FordFulkerson/FordFulkerson.py variant (lines 61-100)

Its `fordFulkerson(residualgraph)` builds the residual graph by iterating the
module-global `graph`; the script calls `fordFulkerson(graph)` with that same
global, so `residualgraph` and `graph` alias one dict.  The build loop then
runs `residualgraph[u] = {}` — clearing `graph[u]` itself — before copying
`graph[u]`, which is empty by then.  We model the single shared dict as one
value threaded through both names.  This variant also counts the augmenting
paths it uses and returns `(maxflow, stpaths)`. -/

/-- The `fordFulkerson` main loop of the variant, with the s-t path counter
(lines 85-98): same search and augmentation as `ffLoop`. -/
def ffLoopCount : Nat → Graph → Int → Nat → Option (Int × Nat)
  | 0, _, _, _ => none
  | fuel + 1, g, maxflow, stpaths =>
    match augmentedPath g "s" "t" fuel with
    | none => none
    | some (path, flow) =>
      if flow = Cap.num 0 then some (maxflow, stpaths)
      else
        match path, flow with
        | some p, Cap.num d => ffLoopCount fuel (augment g p d) (maxflow + d) (stpaths + 1)
        | _, _ => none

/-- `fordFulkerson(graph)` of FordFulkerson/FordFulkerson.py as executed by
its `__main__` block, where the argument aliases the global `graph`: the
first build pass walks the keys, replaces each adjacency dict by `{}` (on
the shared dict) and then copies the now-empty `graph[u]`; the reverse-arc
pass then finds no edges; the search loop runs on the emptied graph. -/
def ffAliased (graph : Graph) (fuel : Nat) : Option (Int × Nat) :=
  let residualgraph := (gkeys graph).foldl (fun rg u =>
    let rg1 := aset rg u []
    (gget rg1 u).foldl (fun rg2 vc => setEdge rg2 u vc.1 vc.2) rg1) graph
  ffLoopCount fuel (addReverse residualgraph) 0 0


/-! ## Specification predicates -/

/-- `p` is a chain of (from, to) edge pairs leading from `s` to `t`:
each pair starts where the previous one ended. -/
def EdgeChain (s : Node) : List (Node × Node) → Node → Prop
  | [], t => s = t
  | e :: rest, t => e.1 = s ∧ EdgeChain e.2 rest t

/-- There is an s-to-t path every edge of which has strictly positive
residual capacity. -/
def PosPath (g : Graph) (s t : Node) : Prop :=
  ∃ p, EdgeChain s p t ∧ ∀ e ∈ p, 0 < capAt g e.1 e.2

/-- The bottleneck of a path: the minimum residual capacity along the edge
sequence, folded exactly as the search folds it (infinity for the empty
sequence). -/
def minCaps (g : Graph) (p : List (Node × Node)) : Cap :=
  p.foldl (fun f e => capMin f (capAt g e.1 e.2)) Cap.inf

/-- The pair (u, v) is present as an edge entry (of any capacity). -/
def PairPresent (g : Graph) (u v : Node) : Prop := (aget (gget g u) v).isSome

instance (g : Graph) (u v : Node) : Decidable (PairPresent g u v) := by
  unfold PairPresent
  infer_instance

/-- The graph dict has no duplicate node keys (always true of Python dicts;
an invariant of our association lists). -/
def KeysNodup (g : Graph) : Prop := (gkeys g).Nodup

/-- No adjacency dict has duplicate neighbour keys. -/
def AdjNodup (g : Graph) : Prop := ∀ ua ∈ g, (ua.2.map Prod.fst).Nodup

/-- Every neighbour mentioned in an adjacency dict is itself a key of the
graph (so Python's `residualgraph[currentnode]` lookups cannot raise). -/
def ClosedGraph (g : Graph) : Prop := ∀ ua ∈ g, ∀ vc ∈ ua.2, vc.1 ∈ gkeys g

/-- Every edge (u, v) has a reverse entry (v, u), as `load_graph` and the
residual-graph build guarantee. -/
def SymAdj (g : Graph) : Prop := ∀ ua ∈ g, ∀ vc ∈ ua.2, PairPresent g vc.1 ua.1

/-- All stored capacities are non-negative. -/
def NonnegCaps (g : Graph) : Prop := ∀ ua ∈ g, ∀ vc ∈ ua.2, 0 ≤ vc.2

/-! ## Association-list lemmas -/

theorem aget_eq_none {β : Type} (l : List (Node × β)) (v : Node) :
    aget l v = none ↔ v ∉ l.map Prod.fst := by
  induction l with
  | nil => simp [aget]
  | cons p rest ih =>
    obtain ⟨k, x⟩ := p
    by_cases h : k = v
    · subst h
      simp [aget]
    · have h2 : ¬v = k := fun e => h e.symm
      simp only [aget, if_neg h, List.map_cons, List.mem_cons, ih]
      tauto

theorem mem_of_aget {β : Type} {l : List (Node × β)} {v : Node} {x : β}
    (h : aget l v = some x) : (v, x) ∈ l := by
  induction l with
  | nil => simp [aget] at h
  | cons p rest ih =>
    obtain ⟨k, y⟩ := p
    by_cases hk : k = v
    · subst hk
      rw [aget, if_pos rfl] at h
      cases h
      exact List.mem_cons_self _ _
    · rw [aget, if_neg hk] at h
      exact List.mem_cons_of_mem _ (ih h)

theorem aget_of_mem_nodup {β : Type} {l : List (Node × β)} {v : Node} {x : β}
    (hmem : (v, x) ∈ l) (hnd : (l.map Prod.fst).Nodup) : aget l v = some x := by
  induction l with
  | nil => simp at hmem
  | cons p rest ih =>
    obtain ⟨k, y⟩ := p
    simp only [List.map_cons, List.nodup_cons] at hnd
    rcases List.mem_cons.mp hmem with h | h
    · obtain ⟨h1, h2⟩ := Prod.mk.inj h
      subst h1
      subst h2
      rw [aget, if_pos rfl]
    · have hk : k ≠ v := by
        rintro rfl
        exact hnd.1 (List.mem_map.mpr ⟨(k, x), h, rfl⟩)
      rw [aget, if_neg hk]
      exact ih h hnd.2

theorem aget_aset_self {β : Type} (l : List (Node × β)) (v : Node) (x : β) :
    aget (aset l v x) v = some x := by
  induction l with
  | nil => simp [aget, aset]
  | cons p rest ih =>
    obtain ⟨k, y⟩ := p
    by_cases h : k = v
    · simp [aset, h, aget]
    · simp [aset, h, aget, ih]

theorem aget_aset_ne {β : Type} (l : List (Node × β)) {v w : Node} (x : β)
    (h : w ≠ v) : aget (aset l v x) w = aget l w := by
  induction l with
  | nil => simp [aget, aset, Ne.symm h]
  | cons p rest ih =>
    obtain ⟨k, y⟩ := p
    by_cases hk : k = v
    · subst hk
      simp [aset, aget, Ne.symm h]
    · by_cases hw : k = w
      · subst hw
        simp [aset, if_neg hk, aget]
      · simp [aset, hk, aget, hw, ih]

theorem keys_aset_of_mem {β : Type} {l : List (Node × β)} {v : Node} (x : β)
    (h : v ∈ l.map Prod.fst) : (aset l v x).map Prod.fst = l.map Prod.fst := by
  induction l with
  | nil => simp at h
  | cons p rest ih =>
    obtain ⟨k, y⟩ := p
    by_cases hk : k = v
    · simp [aset, hk]
    · simp only [List.map_cons, List.mem_cons] at h
      rcases h with h | h
      · exact absurd h.symm hk
      · simp [aset, hk, ih h]

theorem keys_aset_of_not_mem {β : Type} {l : List (Node × β)} {v : Node} (x : β)
    (h : v ∉ l.map Prod.fst) : (aset l v x).map Prod.fst = l.map Prod.fst ++ [v] := by
  induction l with
  | nil => simp [aset]
  | cons p rest ih =>
    obtain ⟨k, y⟩ := p
    simp only [List.map_cons, List.mem_cons] at h
    push_neg at h
    simp [aset, Ne.symm h.1, ih h.2]

theorem aget_amod_self {β : Type} (l : List (Node × β)) (v : Node) (f : β → β) :
    aget (amod l v f) v = (aget l v).map f := by
  induction l with
  | nil => simp [aget, amod]
  | cons p rest ih =>
    obtain ⟨k, y⟩ := p
    by_cases h : k = v
    · simp [amod, h, aget]
    · simp [amod, h, aget, ih]

theorem aget_amod_ne {β : Type} (l : List (Node × β)) {v w : Node} (f : β → β)
    (h : w ≠ v) : aget (amod l v f) w = aget l w := by
  induction l with
  | nil => simp [aget, amod]
  | cons p rest ih =>
    obtain ⟨k, y⟩ := p
    by_cases hk : k = v
    · subst hk
      simp [amod, aget, Ne.symm h, ih]
    · by_cases hw : k = w
      · subst hw
        simp [amod, if_neg hk, aget]
      · simp [amod, hk, aget, hw, ih]

theorem keys_amod {β : Type} (l : List (Node × β)) (v : Node) (f : β → β) :
    (amod l v f).map Prod.fst = l.map Prod.fst := by
  induction l with
  | nil => simp [amod]
  | cons p rest ih =>
    obtain ⟨k, y⟩ := p
    by_cases h : k = v
    · simp [amod, h, ih]
    · simp [amod, h, ih]

/-! ## Lemmas about edge updates and augmentation -/

theorem gget_incEdge (g : Graph) (u v x : Node) (k : Int) :
    gget (incEdge g u v k) x =
      if x = u then amod (gget g u) v (fun c => c + k) else gget g x := by
  by_cases h : x = u
  · subst h
    rw [incEdge, gget, aget_amod_self, if_pos rfl]
    cases hg : aget g x
    · simp [gget, hg, amod]
    · simp [gget, hg]
  · rw [incEdge, gget, aget_amod_ne _ _ h, if_neg h, gget]

theorem capAt_incEdge (g : Graph) (u v x y : Node) (k : Int) :
    capAt (incEdge g u v k) x y =
      capAt g x y + (if x = u ∧ y = v ∧ PairPresent g u v then k else 0) := by
  by_cases hx : x = u
  · subst hx
    by_cases hy : y = v
    · subst hy
      have h1 : gget (incEdge g x y k) x = amod (gget g x) y (fun c => c + k) := by
        rw [gget_incEdge, if_pos rfl]
      simp only [capAt, h1, aget_amod_self]
      cases hp : aget (gget g x) y
      · simp [hp, PairPresent]
      · simp [hp, PairPresent]
    · have h1 : gget (incEdge g x v k) x = amod (gget g x) v (fun c => c + k) := by
        rw [gget_incEdge, if_pos rfl]
      simp only [capAt, h1, aget_amod_ne _ _ hy]
      simp [hy]
  · have h1 : gget (incEdge g u v k) x = gget g x := by
      rw [gget_incEdge, if_neg hx]
    simp only [capAt, h1]
    simp [hx]

theorem pairPresent_incEdge (g : Graph) (u v x y : Node) (k : Int) :
    PairPresent (incEdge g u v k) x y ↔ PairPresent g x y := by
  rw [PairPresent, gget_incEdge]
  by_cases hx : x = u
  · subst hx
    rw [if_pos rfl]
    by_cases hy : y = v
    · subst hy
      rw [aget_amod_self]
      cases hp : aget (gget g x) y <;> simp [PairPresent, hp]
    · rw [aget_amod_ne _ _ hy, PairPresent]
  · rw [if_neg hx, PairPresent]

theorem pairPresent_of_capAt_pos {g : Graph} {u v : Node} (h : 0 < capAt g u v) :
    PairPresent g u v := by
  rw [PairPresent]
  cases hp : aget (gget g u) v
  · rw [capAt, hp] at h
    simp at h
  · simp

/-- Closed form of one augmentation step over a whole path: each ordered
pair (x, y) loses `d` for every occurrence of (x, y) on the path and gains
`d` for every occurrence of (y, x). -/
theorem capAt_augment {g : Graph} {p : List (Node × Node)} {d : Int}
    (hp : ∀ e ∈ p, PairPresent g e.1 e.2 ∧ PairPresent g e.2 e.1) (x y : Node) :
    capAt (augment g p d) x y =
      capAt g x y - d * (p.count (x, y) : Int) + d * (p.count (y, x) : Int) := by
  induction p generalizing g with
  | nil => simp [augment]
  | cons e rest ih =>
    obtain ⟨a, b⟩ := e
    have hab := hp (a, b) (List.mem_cons_self _ _)
    have hpres1 : PairPresent (incEdge g a b (-d)) b a :=
      (pairPresent_incEdge ..).mpr hab.2
    have step : augment g ((a, b) :: rest) d =
        augment (incEdge (incEdge g a b (-d)) b a d) rest d := by
      simp [augment]
    rw [step, ih]
    · have h1 := capAt_incEdge g a b x y (-d)
      have h2 := capAt_incEdge (incEdge g a b (-d)) b a x y d
      rw [h2, h1]
      have hcnt1 : (((a, b) :: rest).count (x, y) : Int) =
          (rest.count (x, y) : Int) + (if (a, b) = (x, y) then 1 else 0) := by
        by_cases hq : (a, b) = (x, y) <;>
          simp [List.count_cons, hq]
      have hcnt2 : (((a, b) :: rest).count (y, x) : Int) =
          (rest.count (y, x) : Int) + (if (a, b) = (y, x) then 1 else 0) := by
        by_cases hq : (a, b) = (y, x) <;>
          simp [List.count_cons, hq]
      rw [hcnt1, hcnt2]
      by_cases e1 : x = a ∧ y = b ∧ PairPresent g a b
      · have hxy : (a, b) = (x, y) := by
          simp [e1.1, e1.2.1]
        by_cases e2 : x = b ∧ y = a ∧ PairPresent (incEdge g a b (-d)) b a
        · have hyx : (a, b) = (y, x) := by
            simp [e2.2.1, e2.1]
          rw [if_pos e1, if_pos e2, if_pos hxy, if_pos hyx]
          ring
        · have hyx : ¬(a, b) = (y, x) := by
            intro hq
            obtain ⟨q1, q2⟩ := Prod.mk.inj hq
            exact e2 ⟨q2.symm, q1.symm, hpres1⟩
          rw [if_pos e1, if_neg e2, if_pos hxy, if_neg hyx]
          ring
      · have hxy : ¬(a, b) = (x, y) := by
          intro hq
          obtain ⟨q1, q2⟩ := Prod.mk.inj hq
          exact e1 ⟨q1.symm, q2.symm, hab.1⟩
        by_cases e2 : x = b ∧ y = a ∧ PairPresent (incEdge g a b (-d)) b a
        · have hyx : (a, b) = (y, x) := by
            simp [e2.2.1, e2.1]
          rw [if_neg e1, if_pos e2, if_neg hxy, if_pos hyx]
          ring
        · have hyx : ¬(a, b) = (y, x) := by
            intro hq
            obtain ⟨q1, q2⟩ := Prod.mk.inj hq
            exact e2 ⟨q2.symm, q1.symm, hpres1⟩
          rw [if_neg e1, if_neg e2, if_neg hxy, if_neg hyx]
          ring
    · intro e he
      constructor
      · exact (pairPresent_incEdge ..).mpr ((pairPresent_incEdge ..).mpr
          (hp e (List.mem_cons_of_mem _ he)).1)
      · exact (pairPresent_incEdge ..).mpr ((pairPresent_incEdge ..).mpr
          (hp e (List.mem_cons_of_mem _ he)).2)

/-! ## Lemmas about compute_initial_delta -/

theorem deltaLoop_of_gt {maxcap delta : Int} (hd : 0 < delta)
    (h : maxcap < delta * 2) : deltaLoop maxcap delta hd = delta := by
  rw [deltaLoop]
  simp [not_le.mpr h]

theorem deltaLoop_reaches (maxcap : Int) :
    ∀ n : Nat, ∀ delta : Int, ∀ hd : 0 < delta, (maxcap - delta).toNat ≤ n →
      delta ≤ maxcap →
      deltaLoop maxcap delta hd ≤ maxcap ∧
      maxcap < deltaLoop maxcap delta hd * 2 ∧
      ∃ m : Nat, deltaLoop maxcap delta hd = delta * 2 ^ m := by
  intro n
  induction n with
  | zero =>
    intro delta hd hn hle
    have h2 : ¬delta * 2 ≤ maxcap := by omega
    rw [deltaLoop]
    simp only [h2, dite_false]
    exact ⟨hle, by omega, 0, by ring⟩
  | succ n ih =>
    intro delta hd hn hle
    by_cases h2 : delta * 2 ≤ maxcap
    · rw [deltaLoop]
      simp only [h2, dite_true]
      have h3 : (maxcap - delta * 2).toNat ≤ n := by omega
      obtain ⟨hA, hB, m, hm⟩ := ih (delta * 2) (by omega) h3 h2
      exact ⟨hA, hB, m + 1, by rw [hm]; ring⟩
    · rw [deltaLoop]
      simp only [h2, dite_false]
      exact ⟨hle, by omega, 0, by ring⟩

/-! ## Lemmas about the stuck discharge state -/

theorem pushPass_no_push (g : Graph) (u : Node) (st : PPState) (pushed : Bool) :
    ∀ l : List (Node × Int), (∀ vc ∈ l, ¬(0 < vc.2 - fget st.flow u vc.1)) →
      pushPass g u st pushed l = (st, pushed) := by
  intro l
  induction l with
  | nil => intro _; rfl
  | cons vc rest ih =>
    intro h
    rw [pushPass]
    by_cases hex : xget st.excess u = 0
    · simp [hex]
    · have hno : ¬(0 < vc.2 - fget st.flow u vc.1 ∧
          xget st.height u = xget st.height vc.1 + 1) :=
        fun hq => h vc (List.mem_cons_self _ _) hq.1
      simp only [hex, if_false, if_neg hno]
      exact ih (fun e he => h e (List.mem_cons_of_mem _ he))

theorem ppRelabel_noop (g : Graph) (st : PPState) (u : Node)
    (h : ∀ vc ∈ gget g u, ¬(0 < vc.2 - fget st.flow u vc.1)) :
    ppRelabel g st u = st := by
  rw [ppRelabel]
  have hnil : (gget g u).filter
      (fun vc => decide (0 < vc.2 - fget st.flow u vc.1)) = [] := by
    rw [List.filter_eq_nil_iff]
    intro vc hvc
    simpa using h vc hvc
  rw [hnil]
  simp

theorem dischargeBody_stuck (g : Graph) (st : PPState) (u : Node)
    (h : ∀ vc ∈ gget g u, ¬(0 < vc.2 - fget st.flow u vc.1)) :
    dischargeBody g st u = st := by
  by_cases hex : 0 < xget st.excess u
  · simp [dischargeBody, pushPass_no_push g u st false (gget g u) h, hex,
      ppRelabel_noop g st u h]
  · simp [dischargeBody, pushPass_no_push g u st false (gget g u) h, hex]

theorem discharge_stuck (g : Graph) (st : PPState) (u : Node)
    (h : ∀ vc ∈ gget g u, ¬(0 < vc.2 - fget st.flow u vc.1))
    (hex : 0 < xget st.excess u) :
    ∀ n : Nat, discharge g n st u = none := by
  intro n
  induction n with
  | zero => simp [discharge, hex]
  | succ n ih =>
    rw [discharge, if_pos hex, dischargeBody_stuck g st u h]
    exact ih

/-! ## Lemmas about load_graph -/

/-- A line that `load_graph` consumes without raising: exactly three
whitespace-separated tokens, the third one an integer literal. -/
def cleanLine (l : String) : Bool :=
  match pysplit l with
  | [_, _, tok] => (pyint tok).isSome
  | _ => false

theorem loadLoop_error_of_badcount :
    ∀ (lines : List String) (i : Nat) (g : Graph) (ec : Nat) (j : Nat)
      (hj : j < lines.length),
      (pysplit (lines.get ⟨j, hj⟩)).length ≠ 3 →
      ∃ e, loadLoop lines i g ec = Except.error e := by
  intro lines
  induction lines with
  | nil => intro _ _ _ j hj; simp at hj
  | cons line rest ih =>
    intro i g ec j hj hbad
    match hsp : pysplit line with
    | [u, v, tok] =>
      match j with
      | 0 =>
        exfalso
        apply hbad
        simp [List.get, hsp]
      | j' + 1 =>
        match hint : pyint tok with
        | none => exact ⟨LoadErr.intErr (i + 1) tok, by simp only [loadLoop, hsp, hint]⟩
        | some c =>
          obtain ⟨e, he⟩ := ih (i + 1) _ (ec + 1) j' (by simpa using hj) (by simpa using hbad)
          exact ⟨e, by simp only [loadLoop, hsp, hint]; exact he⟩
    | [] => exact ⟨LoadErr.parse (i + 1) line.trim, by simp only [loadLoop, hsp]⟩
    | [a] => exact ⟨LoadErr.parse (i + 1) line.trim, by simp only [loadLoop, hsp]⟩
    | [a, b] => exact ⟨LoadErr.parse (i + 1) line.trim, by simp only [loadLoop, hsp]⟩
    | a :: b :: c :: d :: r =>
      exact ⟨LoadErr.parse (i + 1) line.trim, by simp only [loadLoop, hsp]⟩

theorem loadLoop_firstbad :
    ∀ (lines : List String) (i : Nat) (g : Graph) (ec : Nat) (j : Nat)
      (hj : j < lines.length),
      (∀ k (hk : k < j), cleanLine (lines.get ⟨k, by omega⟩) = true) →
      (pysplit (lines.get ⟨j, hj⟩)).length ≠ 3 →
      loadLoop lines i g ec =
        Except.error (LoadErr.parse (i + j + 1) (lines.get ⟨j, hj⟩).trim) := by
  intro lines
  induction lines with
  | nil => intro _ _ _ j hj; simp at hj
  | cons line rest ih =>
    intro i g ec j hj hclean hbad
    match j with
    | 0 =>
      match hsp : pysplit line with
      | [u, v, tok] =>
        exfalso
        apply hbad
        simp [List.get, hsp]
      | [] => simp only [loadLoop, hsp, List.get]
      | [a] => simp only [loadLoop, hsp, List.get]
      | [a, b] => simp only [loadLoop, hsp, List.get]
      | a :: b :: c :: d :: r => simp only [loadLoop, hsp, List.get]
    | j' + 1 =>
      have hc0 : cleanLine line = true := hclean 0 (by omega)
      rw [cleanLine] at hc0
      match hsp : pysplit line with
      | [u, v, tok] =>
        rw [hsp] at hc0
        simp only at hc0
        match hint : pyint tok with
        | none => rw [hint] at hc0; simp at hc0
        | some c =>
          simp only [loadLoop, hsp, hint, List.get_cons_succ]
          rw [ih (i + 1) _ (ec + 1) j' (by simpa using hj)
            (fun k hk => by
              have := hclean (k + 1) (by omega)
              simpa using this)
            (by simpa using hbad)]
          rw [show i + 1 + j' + 1 = i + (j' + 1) + 1 from by omega]
      | [] => rw [hsp] at hc0; simp at hc0
      | [a] => rw [hsp] at hc0; simp at hc0
      | [a, b] => rw [hsp] at hc0; simp at hc0
      | a :: b :: c :: d :: r => rw [hsp] at hc0; simp at hc0

theorem loadLoop_clean_ok :
    ∀ (lines : List String) (i : Nat) (g : Graph) (ec : Nat),
      (∀ l ∈ lines, cleanLine l = true) →
      ∃ res, loadLoop lines i g ec = Except.ok res := by
  intro lines
  induction lines with
  | nil => intro i g ec _; exact ⟨_, rfl⟩
  | cons line rest ih =>
    intro i g ec h
    have hc0 : cleanLine line = true := h line (List.mem_cons_self _ _)
    rw [cleanLine] at hc0
    match hsp : pysplit line with
    | [u, v, tok] =>
      rw [hsp] at hc0
      simp only at hc0
      match hint : pyint tok with
      | none => rw [hint] at hc0; simp at hc0
      | some c =>
        obtain ⟨res, hres⟩ := ih (i + 1) _ (ec + 1)
          (fun l hl => h l (List.mem_cons_of_mem _ hl))
        exact ⟨res, by simp only [loadLoop, hsp, hint]; exact hres⟩
    | [] => rw [hsp] at hc0; simp at hc0
    | [a] => rw [hsp] at hc0; simp at hc0
    | [a, b] => rw [hsp] at hc0; simp at hc0
    | a :: b :: c :: d :: r => rw [hsp] at hc0; simp at hc0

/-! ## The preflow-push divergence witness

`gBad` is a capacity graph with non-negative integer capacities containing
the nodes "s" and "t" (each node of an edge file line becomes a key; "b" has
no outgoing edges).  Both augmenting-path drivers return flow 0 on it, but
`PreflowPush.max_flow` pushes the excess of "a" to "b" and then discharges
"b" forever: "b" has positive excess and no neighbour at all, so `_relabel`
is a silent no-op and the `while self.excess[u] > 0` loop never exits. -/
def gBad : Graph := [("s", [("a", 1)]), ("a", [("b", 1)]), ("b", []), ("t", [])]

/-- The state after `_initialize_preflow` on `gBad`. -/
def ppBad0 : PPState := initPreflow gBad "s"

/-- The state after the first discharge iteration of "a" (a relabel). -/
def ppBad1 : PPState :=
  { flow := [(("s", "a"), 1), (("a", "s"), -1)]
    excess := [("a", 1), ("s", -1)]
    height := [("s", 4), ("a", 1)] }

/-- The state after the second discharge iteration of "a" (the push to "b"). -/
def ppBad2 : PPState :=
  { flow := [(("s", "a"), 1), (("a", "s"), -1), (("a", "b"), 1), (("b", "a"), -1)]
    excess := [("a", 0), ("s", -1), ("b", 1)]
    height := [("s", 4), ("a", 1)] }

theorem discharge_done (g : Graph) (st : PPState) (u : Node)
    (h : ¬0 < xget st.excess u) : ∀ n, discharge g n st u = some st := by
  intro n
  cases n with
  | zero => simp [discharge, h]
  | succ n => simp [discharge, h]

theorem gBad_discharge_b (st : PPState) (hex : 0 < xget st.excess "b") :
    ∀ n, discharge gBad n st "b" = none := by
  apply discharge_stuck gBad st "b" _ hex
  intro vc hvc
  simp [gBad, gget, aget] at hvc

theorem gBad_discharge_a : ∀ n, discharge gBad (n + 2) ppBad0 "a" = some ppBad2 := by
  intro n
  rw [discharge, if_pos (by decide)]
  rw [show dischargeBody gBad ppBad0 "a" = ppBad1 from by decide]
  rw [discharge, if_pos (by decide)]
  rw [show dischargeBody gBad ppBad1 "a" = ppBad2 from by decide]
  exact discharge_done _ _ _ (by decide) n

theorem gBad_mainloop : ∀ fuel, ppMainLoop gBad "s" "t" fuel ppBad0 ["a"] = none := by
  intro fuel
  match fuel with
  | 0 => rfl
  | 1 => decide
  | 2 => decide
  | n + 3 =>
    rw [ppMainLoop, if_neg (by decide), gBad_discharge_a n]
    show ppMainLoop gBad "s" "t" (n + 2) ppBad2 ["a", "b"] = none
    rw [ppMainLoop, if_pos (by decide)]
    rw [ppMainLoop, if_neg (by decide), gBad_discharge_b ppBad2 (by decide) n]

theorem gBad_ppMaxFlow : ∀ fuel, ppMaxFlow gBad "s" "t" fuel = none := by
  intro fuel
  have h : ppMaxFlow gBad "s" "t" fuel = ppMainLoop gBad "s" "t" fuel ppBad0 ["a"] := rfl
  rw [h, gBad_mainloop]

/-! ## Depth-first search: invariants and helper lemmas -/

/-- The source endpoints of the edges of a path. -/
def pathSrcs (p : List (Node × Node)) : List Node := p.map Prod.fst

/-- The nodes carried by the entries of the search stack. -/
def stackNodes (stack : List Entry) : List Node := stack.map (fun e => e.1)

/-- What is true of every entry (x, f, p) on the search stack: `p` is a
positive-capacity chain from `s` to `x` whose running bottleneck is `f`, the
edge sources are distinct already-visited nodes, and `x` is none of them. -/
def EntryOk (g : Graph) (s : Node) (visited : List Node) (e : Entry) : Prop :=
  EdgeChain s e.2.2 e.1 ∧
  (∀ ed ∈ e.2.2, 0 < capAt g ed.1 ed.2) ∧
  e.2.1 = minCaps g e.2.2 ∧
  (pathSrcs e.2.2).Nodup ∧
  e.1 ∉ pathSrcs e.2.2 ∧
  (∀ x ∈ pathSrcs e.2.2, x ∈ visited)

/-- The completeness invariant: the sink is unvisited, and every
positive-capacity edge out of a visited node leads back into the visited set
or onto the stack. -/
def ClosureOk (g : Graph) (t : Node) (stack : List Entry) (visited : List Node) : Prop :=
  t ∉ visited ∧
  ∀ x ∈ visited, ∀ vc ∈ gget g x, 0 < vc.2 → vc.1 ∈ visited ∨ vc.1 ∈ stackNodes stack

theorem edgeChain_append {s u v : Node} {p : List (Node × Node)}
    (h : EdgeChain s p u) : EdgeChain s (p ++ [(u, v)]) v := by
  induction p generalizing s with
  | nil => exact ⟨h.symm ▸ rfl, rfl⟩
  | cons e rest ih => exact ⟨h.1, ih h.2⟩

theorem minCaps_append (g : Graph) (p : List (Node × Node)) (e : Node × Node) :
    minCaps g (p ++ [e]) = capMin (minCaps g p) (capAt g e.1 e.2) := by
  simp [minCaps, List.foldl_append]

theorem capAt_of_mem_adj {g : Graph} {u : Node} {vc : Node × Int}
    (hA : AdjNodup g) (hmem : vc ∈ gget g u) : capAt g u vc.1 = vc.2 := by
  rw [capAt]
  cases hg : aget g u with
  | none => rw [gget, hg] at hmem; simp at hmem
  | some a =>
    rw [gget, hg] at hmem
    simp only [Option.getD_some] at hmem
    have hnd := hA (u, a) (mem_of_aget hg)
    rw [gget, hg]
    simp only [Option.getD_some]
    rw [aget_of_mem_nodup (show (vc.1, vc.2) ∈ a from hmem) hnd]
    rfl

theorem mem_keys_of_adj {g : Graph} {u : Node} {vc : Node × Int}
    (hC : ClosedGraph g) (hmem : vc ∈ gget g u) : vc.1 ∈ gkeys g := by
  cases hg : aget g u with
  | none => rw [gget, hg] at hmem; simp at hmem
  | some a =>
    rw [gget, hg] at hmem
    simp only [Option.getD_some] at hmem
    exact hC (u, a) (mem_of_aget hg) vc hmem

theorem capAt_pos_mem_adj {g : Graph} {x b : Node} (h : 0 < capAt g x b) :
    ∃ c, (b, c) ∈ gget g x ∧ 0 < c := by
  rw [capAt] at h
  cases hp : aget (gget g x) b with
  | none => rw [hp] at h; simp at h
  | some c =>
    rw [hp] at h
    simp only [Option.getD_some] at h
    exact ⟨c, mem_of_aget hp, h⟩

/-- If the visited set is closed under positive edges, contains `s` and
excludes `t`, no positive path from `s` reaches `t`. -/
theorem no_posPath_of_closed {g : Graph} {t : Node} {visited : List Node}
    (ht : t ∉ visited)
    (hcl : ∀ x ∈ visited, ∀ vc ∈ gget g x, 0 < vc.2 → vc.1 ∈ visited) :
    ∀ {s : Node} {p : List (Node × Node)}, s ∈ visited → EdgeChain s p t →
      (∀ e ∈ p, 0 < capAt g e.1 e.2) → False := by
  intro s p
  induction p generalizing s with
  | nil => intro hs hchain _; exact ht (hchain ▸ hs)
  | cons e rest ih =>
    intro hs hchain hpos
    obtain ⟨he1, hrest⟩ := hchain
    have hpe := hpos e (List.mem_cons_self _ _)
    obtain ⟨c, hmem, hc⟩ := capAt_pos_mem_adj hpe
    have : e.2 ∈ visited := by
      have := hcl e.1 (he1 ▸ hs) (e.2, c) hmem hc
      exact this
    exact ih this hrest (fun q hq => hpos q (List.mem_cons_of_mem _ hq))

theorem length_filter_le_of_imp {α : Type} (l : List α) (p q : α → Bool)
    (himp : ∀ x, q x = true → p x = true) :
    (l.filter q).length ≤ (l.filter p).length := by
  induction l with
  | nil => simp
  | cons x xs ih =>
    by_cases hq : q x = true
    · rw [List.filter_cons_of_pos hq, List.filter_cons_of_pos (himp x hq)]
      simpa using ih
    · rw [List.filter_cons_of_neg (by simpa using hq)]
      by_cases hp : p x = true
      · rw [List.filter_cons_of_pos hp]
        exact le_trans ih (by simp)
      · rw [List.filter_cons_of_neg (by simpa using hp)]
        exact ih

theorem length_filter_lt_of_imp {α : Type} (l : List α) (p q : α → Bool)
    (himp : ∀ x, q x = true → p x = true) (u : α) (hu : u ∈ l)
    (hpu : p u = true) (hqu : q u = false) :
    (l.filter q).length < (l.filter p).length := by
  induction l with
  | nil => simp at hu
  | cons x xs ih =>
    rcases List.mem_cons.mp hu with h | h
    · subst h
      rw [List.filter_cons_of_pos hpu, List.filter_cons_of_neg (by simp [hqu])]
      exact Nat.lt_succ_of_le (length_filter_le_of_imp xs p q himp)
    · by_cases hq : q x = true
      · rw [List.filter_cons_of_pos hq, List.filter_cons_of_pos (himp x hq)]
        simpa using ih h
      · rw [List.filter_cons_of_neg (by simpa using hq)]
        by_cases hp : p x = true
        · rw [List.filter_cons_of_pos hp]
          exact Nat.lt_succ_of_le (le_of_lt (ih h))
        · rw [List.filter_cons_of_neg (by simpa using hp)]
          exact ih h

theorem dfs_closed_noPath {g : Graph} {s t : Node} {visited : List Node}
    (hCl : ClosureOk g t [] visited) (hs : s ∈ visited) : ¬PosPath g s t := by
  rintro ⟨p, hchain, hpos⟩
  refine no_posPath_of_closed hCl.1 ?_ hs hchain hpos
  intro x hx vc hvc hpos2
  rcases hCl.2 x hx vc hvc hpos2 with h | h
  · exact h
  · simp [stackNodes] at h

theorem dfsLoop_sound (g : Graph) (s t : Node) (hA : AdjNodup g) :
    ∀ (fuel : Nat) (stack : List Entry) (visited : List Node),
      (∀ e ∈ stack, EntryOk g s visited e) →
      ClosureOk g t stack visited →
      (s ∈ visited ∨ s ∈ stackNodes stack) →
      ∀ r, dfsLoop g t fuel stack visited = some r →
      ((r.1 = none → r = (none, Cap.num 0) ∧ ¬PosPath g s t) ∧
       (∀ p b, r = (some p, b) →
         EdgeChain s p t ∧ (∀ e ∈ p, 0 < capAt g e.1 e.2) ∧ b = minCaps g p ∧
         (pathSrcs p).Nodup ∧ t ∉ pathSrcs p)) := by
  intro fuel
  induction fuel with
  | zero =>
    intro stack visited hE hCl hS r hr
    cases stack with
    | nil =>
      have hr2 : ((none : Option (List (Node × Node))), Cap.num 0) = r :=
        Option.some.inj hr
      subst hr2
      have hs : s ∈ visited := by
        rcases hS with h | h
        · exact h
        · simp [stackNodes] at h
      exact ⟨fun _ => ⟨rfl, dfs_closed_noPath hCl hs⟩, fun p b hpb => by cases hpb⟩
    | cons e rest => cases hr
  | succ fuel ih =>
    intro stack visited hE hCl hS r hr
    cases stack with
    | nil =>
      have hr2 : ((none : Option (List (Node × Node))), Cap.num 0) = r :=
        Option.some.inj hr
      subst hr2
      have hs : s ∈ visited := by
        rcases hS with h | h
        · exact h
        · simp [stackNodes] at h
      exact ⟨fun _ => ⟨rfl, dfs_closed_noPath hCl hs⟩, fun p b hpb => by cases hpb⟩
    | cons e rest =>
      obtain ⟨u, f, p⟩ := e
      rw [dfsLoop] at hr
      by_cases hut : u = t
      · rw [if_pos hut] at hr
        have hr2 : ((some p : Option (List (Node × Node))), f) = r := Option.some.inj hr
        subst hr2
        obtain ⟨hchain, hpos, hf, hnd, hnotin, hsub⟩ := hE (u, f, p) (List.mem_cons_self _ _)
        constructor
        · intro h1; cases h1
        · intro p' b' hpb
          obtain ⟨h1, h2⟩ := Prod.mk.inj hpb
          have hp' : p = p' := Option.some.inj h1
          subst hp'
          subst h2
          exact ⟨hut ▸ hchain, hpos, hf, hnd, hut ▸ hnotin⟩
      · rw [if_neg hut] at hr
        have hadm : ∀ vc ∈ (gget g u).filter
            (fun vc => decide (0 < vc.2) && !((u :: visited).contains vc.1)),
            vc ∈ gget g u ∧ 0 < vc.2 ∧ vc.1 ∉ u :: visited := by
          intro vc hvc
          have h1 := List.mem_filter.mp hvc
          refine ⟨h1.1, ?_, ?_⟩
          · have := h1.2
            simp only [Bool.and_eq_true, decide_eq_true_eq] at this
            exact this.1
          · have := h1.2
            simp only [Bool.and_eq_true, Bool.not_eq_true'] at this
            intro hmem
            rw [List.contains_eq_any_beq] at this
            have : ¬((u :: visited).any (fun x => vc.1 == x)) = true := by
              rw [this.2]; simp
            apply this
            rw [List.any_eq_true]
            exact ⟨vc.1, hmem, by simp⟩
        obtain ⟨hchainH, hposH, hfH, hndH, hnotinH, hsubH⟩ :=
          hE (u, f, p) (List.mem_cons_self _ _)
        have hE1 : ∀ e ∈ (dfsPushes g u f p (u :: visited)).reverse ++ rest,
            EntryOk g s (u :: visited) e := by
          intro e he
          rcases List.mem_append.mp he with he | he
          · rw [List.mem_reverse] at he
            obtain ⟨vc, hvc, hve⟩ := List.mem_map.mp he
            obtain ⟨hmem, hcpos, hnvis⟩ := hadm vc hvc
            subst hve
            have hcap : capAt g u vc.1 = vc.2 := capAt_of_mem_adj hA hmem
            refine ⟨?_, ?_, ?_, ?_, ?_, ?_⟩
            · exact edgeChain_append hchainH
            · intro ed hed
              rcases List.mem_append.mp hed with hed | hed
              · exact hposH ed hed
              · have : ed = (u, vc.1) := by simpa using hed
                subst this
                simpa [hcap] using hcpos
            · rw [minCaps_append, ← hfH, hcap]
            · have : pathSrcs (p ++ [(u, vc.1)]) = pathSrcs p ++ [u] := by
                simp [pathSrcs]
              rw [this]
              rw [List.nodup_append]
              exact ⟨hndH, List.nodup_singleton _,
                by simpa [List.Disjoint] using fun a ha hq => hnotinH ((hq : a = u) ▸ ha)⟩
            · have : pathSrcs (p ++ [(u, vc.1)]) = pathSrcs p ++ [u] := by
                simp [pathSrcs]
              rw [this]
              intro hv
              rcases List.mem_append.mp hv with hv | hv
              · exact hnvis (List.mem_cons_of_mem _ (hsubH _ hv))
              · have : vc.1 = u := by simpa using hv
                exact hnvis (this ▸ List.mem_cons_self _ _)
            · have : pathSrcs (p ++ [(u, vc.1)]) = pathSrcs p ++ [u] := by
                simp [pathSrcs]
              rw [this]
              intro x hx
              rcases List.mem_append.mp hx with hx | hx
              · exact List.mem_cons_of_mem _ (hsubH _ hx)
              · have : x = u := by simpa using hx
                exact this ▸ List.mem_cons_self _ _
          · obtain ⟨h1, h2, h3, h4, h5, h6⟩ := hE e (List.mem_cons_of_mem _ he)
            exact ⟨h1, h2, h3, h4, h5, fun x hx => List.mem_cons_of_mem _ (h6 x hx)⟩
        have hCl1 : ClosureOk g t ((dfsPushes g u f p (u :: visited)).reverse ++ rest)
            (u :: visited) := by
          constructor
          · intro hmem
            rcases List.mem_cons.mp hmem with h | h
            · exact hut h.symm
            · exact hCl.1 h
          · intro x hx vc hvc hposvc
            rcases List.mem_cons.mp hx with hxu | hxv
            · subst hxu
              by_cases hin : vc.1 ∈ x :: visited
              · exact Or.inl hin
              · right
                have hfilter : vc ∈ (gget g x).filter
                    (fun vc => decide (0 < vc.2) && !((x :: visited).contains vc.1)) := by
                  rw [List.mem_filter]
                  refine ⟨hvc, ?_⟩
                  simp only [Bool.and_eq_true, decide_eq_true_eq, Bool.not_eq_true']
                  refine ⟨hposvc, ?_⟩
                  rw [List.contains_eq_any_beq]
                  rw [Bool.eq_false_iff]
                  intro hany
                  rw [List.any_eq_true] at hany
                  obtain ⟨a, ha, hbeq⟩ := hany
                  exact hin ((show vc.1 = a by simpa using hbeq) ▸ ha)
                rw [stackNodes]
                rw [List.map_append]
                apply List.mem_append.mpr
                left
                rw [List.map_reverse, List.mem_reverse]
                rw [dfsPushes]
                rw [List.map_map]
                exact List.mem_map.mpr ⟨vc, hfilter, rfl⟩
            · rcases hCl.2 x hxv vc hvc hposvc with h | h
              · exact Or.inl (List.mem_cons_of_mem _ h)
              · rw [stackNodes, List.map_cons] at h
                rcases List.mem_cons.mp h with h | h
                · exact Or.inl (h ▸ List.mem_cons_self _ _)
                · right
                  rw [stackNodes, List.map_append]
                  exact List.mem_append.mpr (Or.inr h)
        have hS1 : s ∈ u :: visited ∨
            s ∈ stackNodes ((dfsPushes g u f p (u :: visited)).reverse ++ rest) := by
          rcases hS with h | h
          · exact Or.inl (List.mem_cons_of_mem _ h)
          · rw [stackNodes, List.map_cons] at h
            rcases List.mem_cons.mp h with h | h
            · exact Or.inl (h ▸ List.mem_cons_self _ _)
            · exact Or.inr (by
                rw [stackNodes, List.map_append]
                exact List.mem_append.mpr (Or.inr h))
        exact ih _ _ hE1 hCl1 hS1 r hr

/-! ## Depth-first search: the loop terminates -/

/-- Every stack entry's node is the start node or a graph key. -/
def EntriesIn (g : Graph) (s : Node) (stack : List Entry) : Prop :=
  ∀ e ∈ stack, e.1 ∈ s :: gkeys g

/-- The number of candidate nodes not yet visited. -/
def UCount (g : Graph) (s : Node) (visited : List Node) : Nat :=
  ((s :: gkeys g).filter (fun x => !(visited.contains x))).length

theorem node_contains_iff (l : List Node) (x : Node) :
    l.contains x = true ↔ x ∈ l := by
  rw [List.contains_eq_any_beq, List.any_eq_true]
  constructor
  · rintro ⟨a, ha, hbeq⟩
    exact (show x = a by simpa using hbeq) ▸ ha
  · intro h
    exact ⟨x, h, by simp⟩

theorem ucount_cons_of_mem (g : Graph) (s : Node) {u : Node} {visited : List Node}
    (h : u ∈ visited) : UCount g s (u :: visited) = UCount g s visited := by
  rw [UCount, UCount]
  congr 1
  apply List.filter_congr
  intro x _
  have heq : ((u :: visited).contains x) = (visited.contains x) := by
    by_cases hm : x ∈ visited
    · have h1 : (u :: visited).contains x = true :=
        (node_contains_iff _ _).mpr (List.mem_cons_of_mem _ hm)
      have h2 : visited.contains x = true := (node_contains_iff _ _).mpr hm
      rw [h1, h2]
    · by_cases hxu : x = u
      · exact absurd (hxu ▸ h) hm
      · have h1 : (u :: visited).contains x = false := by
          rw [Bool.eq_false_iff]
          intro hc
          rcases List.mem_cons.mp ((node_contains_iff _ _).mp hc) with hh | hh
          · exact hxu hh
          · exact hm hh
        have h2 : visited.contains x = false := by
          rw [Bool.eq_false_iff]
          intro hc
          exact hm ((node_contains_iff _ _).mp hc)
        rw [h1, h2]
  rw [heq]

theorem ucount_cons_lt (g : Graph) (s : Node) {u : Node} {visited : List Node}
    (hk : u ∈ s :: gkeys g) (h : u ∉ visited) :
    UCount g s (u :: visited) < UCount g s visited := by
  apply length_filter_lt_of_imp (s :: gkeys g)
    (fun x => !(visited.contains x)) (fun x => !((u :: visited).contains x))
  · intro x hq
    rw [Bool.not_eq_true'] at hq ⊢
    rw [Bool.eq_false_iff] at hq ⊢
    intro hc
    exact hq ((node_contains_iff _ _).mpr
      (List.mem_cons_of_mem _ ((node_contains_iff _ _).mp hc)))
  · exact hk
  · rw [Bool.not_eq_true', Bool.eq_false_iff]
    intro hc
    exact h ((node_contains_iff _ _).mp hc)
  · have hcont : (u :: visited).contains u = true :=
      (node_contains_iff _ _).mpr (List.mem_cons_self _ _)
    rw [hcont]
    rfl

theorem ucount_pos_of_unvisited (g : Graph) (s : Node) {u : Node} {visited : List Node}
    (hk : u ∈ s :: gkeys g) (h : u ∉ visited) : 0 < UCount g s visited := by
  rw [UCount]
  apply List.length_pos.mpr
  apply @List.ne_nil_of_mem _ u
  rw [List.mem_filter]
  refine ⟨hk, ?_⟩
  rw [Bool.not_eq_true', Bool.eq_false_iff]
  intro hc
  exact h ((node_contains_iff _ _).mp hc)

theorem entriesIn_pushes {g : Graph} (s : Node) (hC : ClosedGraph g)
    (u : Node) (f : Cap) (p : List (Node × Node)) (vis1 : List Node) :
    ∀ e ∈ dfsPushes g u f p vis1, e.1 ∈ s :: gkeys g := by
  intro e he
  obtain ⟨vc, hvc, hve⟩ := List.mem_map.mp he
  subst hve
  exact List.mem_cons_of_mem _ (mem_keys_of_adj hC (List.mem_filter.mp hvc).1)

theorem mem_pushes_unvisited {g : Graph} {u : Node} {f : Cap}
    {p : List (Node × Node)} {vis1 : List Node} {e : Entry}
    (he : e ∈ dfsPushes g u f p vis1) : e.1 ∉ vis1 := by
  obtain ⟨vc, hvc, hve⟩ := List.mem_map.mp he
  subst hve
  have h2 := (List.mem_filter.mp hvc).2
  simp only [Bool.and_eq_true, Bool.not_eq_true'] at h2
  intro hmem
  rw [Bool.eq_false_iff] at h2
  exact h2.2 ((node_contains_iff _ _).mpr hmem)

theorem dfsLoop_term (g : Graph) (s t : Node) (hC : ClosedGraph g) :
    ∀ (U L : Nat) (stack : List Entry) (visited : List Node),
      EntriesIn g s stack → UCount g s visited ≤ U → stack.length ≤ L →
      ∃ fuel r, dfsLoop g t fuel stack visited = some r := by
  intro U
  induction U with
  | zero =>
    intro L
    induction L with
    | zero =>
      intro stack visited hE hU hL
      have hnil : stack = [] := List.length_eq_zero.mp (Nat.le_zero.mp hL)
      subst hnil
      exact ⟨0, (none, Cap.num 0), rfl⟩
    | succ L ihL =>
      intro stack visited hE hU hL
      cases stack with
      | nil => exact ⟨0, (none, Cap.num 0), rfl⟩
      | cons e rest =>
        obtain ⟨u, f, p⟩ := e
        by_cases hut : u = t
        · exact ⟨1, (some p, f), by rw [dfsLoop, if_pos hut]⟩
        · have hu_in : u ∈ s :: gkeys g := hE (u, f, p) (List.mem_cons_self _ _)
          have hvis : u ∈ visited := by
            by_contra hnv
            have := ucount_pos_of_unvisited g s hu_in hnv
            omega
          have hall : ∀ x, x ∈ s :: gkeys g → x ∈ visited := by
            intro x hx
            by_contra hnx
            have := ucount_pos_of_unvisited g s hx hnx
            omega
          have hpush : dfsPushes g u f p (u :: visited) = [] := by
            rw [dfsPushes, List.map_eq_nil_iff, List.filter_eq_nil_iff]
            intro vc hvc
            have hkey : vc.1 ∈ s :: gkeys g :=
              List.mem_cons_of_mem _ (mem_keys_of_adj hC hvc)
            have hv : vc.1 ∈ u :: visited := List.mem_cons_of_mem _ (hall vc.1 hkey)
            have hcont : ((u :: visited).contains vc.1) = true :=
              (node_contains_iff _ _).mpr hv
            simp only [hcont, Bool.not_true, Bool.and_false]
            simp
          obtain ⟨fuel, r, hres⟩ := ihL rest (u :: visited)
            (fun e he => hE e (List.mem_cons_of_mem _ he))
            (by rw [ucount_cons_of_mem g s hvis]; exact hU)
            (by simpa using Nat.le_of_succ_le_succ hL)
          refine ⟨fuel + 1, r, ?_⟩
          rw [dfsLoop, if_neg hut, hpush]
          simpa using hres
  | succ U ihU =>
    intro L
    induction L with
    | zero =>
      intro stack visited hE hU hL
      have hnil : stack = [] := List.length_eq_zero.mp (Nat.le_zero.mp hL)
      subst hnil
      exact ⟨0, (none, Cap.num 0), rfl⟩
    | succ L ihL =>
      intro stack visited hE hU hL
      cases stack with
      | nil => exact ⟨0, (none, Cap.num 0), rfl⟩
      | cons e rest =>
        obtain ⟨u, f, p⟩ := e
        by_cases hut : u = t
        · exact ⟨1, (some p, f), by rw [dfsLoop, if_pos hut]⟩
        · have hu_in : u ∈ s :: gkeys g := hE (u, f, p) (List.mem_cons_self _ _)
          have hEp : EntriesIn g s ((dfsPushes g u f p (u :: visited)).reverse ++ rest) := by
            intro e he
            rcases List.mem_append.mp he with he | he
            · exact entriesIn_pushes s hC u f p _ e (List.mem_reverse.mp he)
            · exact hE e (List.mem_cons_of_mem _ he)
          by_cases hvis : u ∈ visited
          · have hUeq := @ucount_cons_of_mem g s u visited hvis
            cases hps : dfsPushes g u f p (u :: visited) with
            | nil =>
              obtain ⟨fuel, r, hres⟩ := ihL rest (u :: visited)
                (fun e he => hE e (List.mem_cons_of_mem _ he))
                (by rw [hUeq]; exact hU)
                (by simpa using Nat.le_of_succ_le_succ hL)
              refine ⟨fuel + 1, r, ?_⟩
              rw [dfsLoop, if_neg hut, hps]
              simpa using hres
            | cons q qs =>
              have hne : (q :: qs).reverse ≠ [] := by simp
              obtain ⟨e1, tail1, hrev⟩ := List.exists_cons_of_ne_nil hne
              have he1mem : e1 ∈ dfsPushes g u f p (u :: visited) := by
                rw [hps, ← List.mem_reverse, hrev]
                exact List.mem_cons_self _ _
              have hnvis1 : e1.1 ∉ u :: visited := mem_pushes_unvisited he1mem
              have hkey1 : e1.1 ∈ s :: gkeys g :=
                entriesIn_pushes s hC u f p _ e1 he1mem
              obtain ⟨w, fw, pw⟩ := e1
              by_cases he1t : w = t
              · refine ⟨2, (some pw, fw), ?_⟩
                rw [dfsLoop, if_neg hut, hps, hrev, List.cons_append,
                  dfsLoop, if_pos he1t]
              · have htail : ∀ e ∈ tail1, e ∈ dfsPushes g u f p (u :: visited) := by
                  intro e he
                  rw [hps, ← List.mem_reverse, hrev]
                  exact List.mem_cons_of_mem _ he
                have hU2 : UCount g s (w :: u :: visited) ≤ U := by
                  have h1 : UCount g s (w :: u :: visited) < UCount g s (u :: visited) :=
                    ucount_cons_lt g s hkey1 hnvis1
                  rw [hUeq] at h1
                  omega
                have hE2 : EntriesIn g s
                    ((dfsPushes g w fw pw (w :: u :: visited)).reverse ++
                      (tail1 ++ rest)) := by
                  intro e he
                  rcases List.mem_append.mp he with he | he
                  · exact entriesIn_pushes s hC w fw pw _ e (List.mem_reverse.mp he)
                  · rcases List.mem_append.mp he with he | he
                    · exact entriesIn_pushes s hC u f p _ e (htail e he)
                    · exact hE e (List.mem_cons_of_mem _ he)
                obtain ⟨fuel, r, hres⟩ := ihU
                  ((dfsPushes g w fw pw (w :: u :: visited)).reverse ++
                    (tail1 ++ rest)).length
                  ((dfsPushes g w fw pw (w :: u :: visited)).reverse ++
                    (tail1 ++ rest))
                  (w :: u :: visited) hE2 hU2 le_rfl
                refine ⟨fuel + 2, r, ?_⟩
                rw [dfsLoop, if_neg hut, hps, hrev, List.cons_append,
                  dfsLoop, if_neg he1t]
                exact hres
          · have hU1 : UCount g s (u :: visited) ≤ U := by
              have := ucount_cons_lt g s hu_in hvis
              omega
            obtain ⟨fuel, r, hres⟩ := ihU
              ((dfsPushes g u f p (u :: visited)).reverse ++ rest).length
              ((dfsPushes g u f p (u :: visited)).reverse ++ rest)
              (u :: visited) hEp hU1 le_rfl
            refine ⟨fuel + 1, r, ?_⟩
            rw [dfsLoop, if_neg hut]
            exact hres

/-! ## More association-list lemmas, for the residual-graph build -/

theorem aget_append {β : Type} (l1 l2 : List (Node × β)) (v : Node) :
    aget (l1 ++ l2) v = match aget l1 v with
      | some x => some x
      | none => aget l2 v := by
  induction l1 with
  | nil => simp [aget]
  | cons p rest ih =>
    obtain ⟨k, y⟩ := p
    by_cases h : k = v
    · simp [aget, h]
    · simp [aget, h, ih]

theorem aset_eq_append {β : Type} {l : List (Node × β)} {v : Node} (x : β)
    (h : v ∉ l.map Prod.fst) : aset l v x = l ++ [(v, x)] := by
  induction l with
  | nil => simp [aset]
  | cons p rest ih =>
    obtain ⟨k, y⟩ := p
    simp only [List.map_cons, List.mem_cons] at h
    push_neg at h
    simp [aset, Ne.symm h.1, ih h.2]

theorem mem_aset {β : Type} {l : List (Node × β)} {v : Node} {x : β}
    {p : Node × β} (h : p ∈ aset l v x) : p ∈ l ∨ p = (v, x) := by
  induction l with
  | nil => simpa [aset] using h
  | cons q rest ih =>
    obtain ⟨k, y⟩ := q
    by_cases hk : k = v
    · rw [aset, if_pos hk] at h
      rcases List.mem_cons.mp h with h | h
      · exact Or.inr h
      · exact Or.inl (List.mem_cons_of_mem _ h)
    · rw [aset, if_neg hk] at h
      rcases List.mem_cons.mp h with h | h
      · exact Or.inl (h ▸ List.mem_cons_self _ _)
      · rcases ih h with h | h
        · exact Or.inl (List.mem_cons_of_mem _ h)
        · exact Or.inr h

theorem mem_amod {β : Type} {l : List (Node × β)} {v : Node} {f : β → β}
    {p : Node × β} (h : p ∈ amod l v f) :
    p ∈ l ∨ ∃ y, (p.1, y) ∈ l ∧ p = (p.1, f y) := by
  induction l with
  | nil => exact absurd h (by simp [amod])
  | cons q rest ih =>
    obtain ⟨k, y⟩ := q
    by_cases hk : k = v
    · rw [amod, if_pos hk] at h
      rcases List.mem_cons.mp h with h | h
      · exact Or.inr ⟨y, by rw [h]; exact List.mem_cons_self _ _, by rw [h]⟩
      · rcases ih h with h | ⟨z, hz, hp⟩
        · exact Or.inl (List.mem_cons_of_mem _ h)
        · exact Or.inr ⟨z, List.mem_cons_of_mem _ hz, hp⟩
    · rw [amod, if_neg hk] at h
      rcases List.mem_cons.mp h with h | h
      · exact Or.inl (h ▸ List.mem_cons_self _ _)
      · rcases ih h with h | ⟨z, hz, hp⟩
        · exact Or.inl (List.mem_cons_of_mem _ h)
        · exact Or.inr ⟨z, List.mem_cons_of_mem _ hz, hp⟩

theorem amod_append_fresh {β : Type} {l : List (Node × β)} {v : Node} (b : β)
    (f : β → β) (h : v ∉ l.map Prod.fst) :
    amod (l ++ [(v, b)]) v f = l ++ [(v, f b)] := by
  induction l with
  | nil => simp [amod]
  | cons p rest ih =>
    obtain ⟨k, y⟩ := p
    simp only [List.map_cons, List.mem_cons] at h
    push_neg at h
    rw [List.cons_append, amod, if_neg (Ne.symm h.1), ih h.2]
    simp

theorem foldl_aset_fresh : ∀ (a acc : Adj), (a.map Prod.fst).Nodup →
    (∀ k ∈ a.map Prod.fst, k ∉ acc.map Prod.fst) →
    a.foldl (fun b vc => aset b vc.1 vc.2) acc = acc ++ a := by
  intro a
  induction a with
  | nil => intro acc _ _; simp
  | cons vc rest ih =>
    intro acc hnd hfresh
    obtain ⟨v, c⟩ := vc
    simp only [List.map_cons, List.nodup_cons] at hnd
    have hv : v ∉ acc.map Prod.fst := hfresh v (by simp)
    rw [List.foldl_cons]
    have : aset acc v c = acc ++ [(v, c)] := aset_eq_append c hv
    rw [this, ih (acc ++ [(v, c)]) hnd.2]
    · simp
    · intro k hk
      rw [List.map_append]
      intro hmem
      rcases List.mem_append.mp hmem with h | h
      · exact hfresh k (List.mem_cons_of_mem _ hk) h
      · have : k = v := by simpa using h
        exact hnd.1 (this ▸ hk)

/-- Under the no-duplicate-keys invariants the copy pass reproduces the
input graph exactly. -/
theorem buildCopy_eq {g0 : Graph} (h1 : KeysNodup g0) (h2 : AdjNodup g0) :
    buildCopy g0 = g0 := by
  rw [buildCopy]
  suffices h : ∀ (entries : List (Node × Adj)) (acc : Graph),
      (entries.map Prod.fst).Nodup →
      (∀ ua ∈ entries, (ua.2.map Prod.fst).Nodup) →
      (∀ k ∈ entries.map Prod.fst, k ∉ acc.map Prod.fst) →
      entries.foldl (fun res ua =>
        ua.2.foldl (fun res2 vc => setEdge res2 ua.1 vc.1 vc.2) (aset res ua.1 []))
        acc = acc ++ entries by
    have := h g0 [] h1 h2 (by simp)
    simpa using this
  intro entries
  induction entries with
  | nil => intro acc _ _ _; simp
  | cons ua rest ih =>
    intro acc hnd hadj hfresh
    obtain ⟨u, a⟩ := ua
    simp only [List.map_cons, List.nodup_cons] at hnd
    have hu : u ∉ acc.map Prod.fst := hfresh u (by simp)
    rw [List.foldl_cons]
    have hset : aset acc u [] = acc ++ [(u, [])] := aset_eq_append [] hu
    have hinner : a.foldl (fun res2 vc => setEdge res2 u vc.1 vc.2)
        (acc ++ [(u, [])]) = acc ++ [(u, a)] := by
      have hadj_a : (a.map Prod.fst).Nodup := hadj (u, a) (List.mem_cons_self _ _)
      suffices hh : ∀ (adj : Adj) (b : Adj), (adj.map Prod.fst).Nodup →
          (∀ k ∈ adj.map Prod.fst, k ∉ b.map Prod.fst) →
          adj.foldl (fun res2 vc => setEdge res2 u vc.1 vc.2) (acc ++ [(u, b)]) =
            acc ++ [(u, b ++ adj)] by
        have := hh a [] hadj_a (by simp)
        simpa using this
      intro adj
      induction adj with
      | nil => intro b _ _; simp
      | cons vc radj ihadj =>
        intro b hbnd hbfresh
        obtain ⟨v, c⟩ := vc
        simp only [List.map_cons, List.nodup_cons] at hbnd
        rw [List.foldl_cons]
        have hstep : setEdge (acc ++ [(u, b)]) u v c = acc ++ [(u, b ++ [(v, c)])] := by
          rw [setEdge, amod_append_fresh b _ hu]
          rw [aset_eq_append c (hbfresh v (by simp))]
        rw [hstep, ihadj (b ++ [(v, c)]) hbnd.2]
        · simp
        · intro k hk
          rw [List.map_append]
          intro hmem
          rcases List.mem_append.mp hmem with h | h
          · exact hbfresh k (List.mem_cons_of_mem _ hk) h
          · have : k = v := by simpa using h
            exact hbnd.1 (this ▸ hk)
    rw [hset, hinner, ih (acc ++ [(u, a)]) hnd.2 (fun q hq => hadj q (List.mem_cons_of_mem _ hq))]
    · simp
    · intro k hk
      rw [List.map_append]
      intro hmem
      rcases List.mem_append.mp hmem with h | h
      · exact hfresh k (List.mem_cons_of_mem _ hk) h
      · have : k = u := by simpa using h
        exact hnd.1 (this ▸ hk)

/-! ## Properties of the reverse-arc pass -/

/-- Pair-level symmetry: every present edge has a present reverse entry. -/
def SymPairs (g : Graph) : Prop := ∀ a b, PairPresent g a b → PairPresent g b a

theorem aget_isSome_of_mem_keys {β : Type} {l : List (Node × β)} {v : Node}
    (h : v ∈ l.map Prod.fst) : (aget l v).isSome := by
  induction l with
  | nil => simp at h
  | cons p rest ih =>
    obtain ⟨k, y⟩ := p
    by_cases hk : k = v
    · simp [aget, hk]
    · rw [aget, if_neg hk]
      apply ih
      rcases List.mem_cons.mp h with h | h
      · exact absurd h.symm hk
      · exact h

theorem mem_keys_of_pairPresent {g : Graph} {a b : Node}
    (h : PairPresent g a b) : b ∈ (gget g a).map Prod.fst := by
  rw [PairPresent] at h
  cases hp : aget (gget g a) b with
  | none => rw [hp] at h; simp at h
  | some c => exact List.mem_map.mpr ⟨(b, c), mem_of_aget hp, rfl⟩

theorem gget_ensureKey (g : Graph) (x y : Node) :
    gget (ensureKey g x) y = gget g y := by
  rw [ensureKey]
  by_cases h : (aget g x).isSome
  · rw [if_pos h]
  · rw [if_neg h]
    rw [gget, gget, aget_append]
    cases hy : aget g y with
    | some a => rfl
    | none =>
      by_cases hxy : x = y
      · simp [aget, hxy]
      · simp [aget, hxy]

theorem pairPresent_ensureKey (g : Graph) (x a b : Node) :
    PairPresent (ensureKey g x) a b ↔ PairPresent g a b := by
  rw [PairPresent, PairPresent, gget_ensureKey]

theorem mem_keys_ensureKey {g : Graph} {x y : Node} (h : y ∈ gkeys g) :
    y ∈ gkeys (ensureKey g x) := by
  rw [ensureKey]
  by_cases hx : (aget g x).isSome
  · rw [if_pos hx]; exact h
  · rw [if_neg hx, gkeys, List.map_append]
    exact List.mem_append.mpr (Or.inl h)

theorem self_mem_keys_ensureKey (g : Graph) (x : Node) :
    x ∈ gkeys (ensureKey g x) := by
  rw [ensureKey]
  by_cases hx : (aget g x).isSome
  · rw [if_pos hx]
    rw [Option.isSome_iff_exists] at hx
    obtain ⟨a, ha⟩ := hx
    exact List.mem_map.mpr ⟨(x, a), mem_of_aget ha, rfl⟩
  · rw [if_neg hx, gkeys, List.map_append]
    exact List.mem_append.mpr (Or.inr (by simp))

theorem keysNodup_ensureKey {g : Graph} (h : KeysNodup g) (x : Node) :
    KeysNodup (ensureKey g x) := by
  rw [ensureKey]
  by_cases hx : (aget g x).isSome
  · rw [if_pos hx]; exact h
  · rw [if_neg hx, KeysNodup, gkeys, List.map_append, List.nodup_append]
    refine ⟨h, by simp, ?_⟩
    intro a ha hmem
    have hax : a = x := by simpa using hmem
    subst hax
    exact hx (aget_isSome_of_mem_keys ha)

theorem adjNodup_ensureKey {g : Graph} (h : AdjNodup g) (x : Node) :
    AdjNodup (ensureKey g x) := by
  rw [ensureKey]
  by_cases hx : (aget g x).isSome
  · rw [if_pos hx]; exact h
  · rw [if_neg hx]
    intro ua hua
    rcases List.mem_append.mp hua with hua | hua
    · exact h ua hua
    · have : ua = (x, []) := by simpa using hua
      subst this
      simp

theorem nonnegCaps_ensureKey {g : Graph} (h : NonnegCaps g) (x : Node) :
    NonnegCaps (ensureKey g x) := by
  rw [ensureKey]
  by_cases hx : (aget g x).isSome
  · rw [if_pos hx]; exact h
  · rw [if_neg hx]
    intro ua hua
    rcases List.mem_append.mp hua with hua | hua
    · exact h ua hua
    · have : ua = (x, []) := by simpa using hua
      subst this
      simp

theorem gget_setEdge {g : Graph} {v : Node} (u : Node) (c : Int)
    (hv : (aget g v).isSome) (y : Node) :
    gget (setEdge g v u c) y = if y = v then aset (gget g v) u c else gget g y := by
  by_cases hy : y = v
  · subst hy
    rw [if_pos rfl, setEdge, gget, aget_amod_self]
    rw [Option.isSome_iff_exists] at hv
    obtain ⟨a, ha⟩ := hv
    rw [ha]
    rw [gget, ha]
    rfl
  · rw [if_neg hy, setEdge, gget, aget_amod_ne _ _ hy, gget]

theorem pairPresent_setEdge {g : Graph} {v : Node} (u : Node) (c : Int)
    (hv : (aget g v).isSome) (a b : Node) :
    PairPresent (setEdge g v u c) a b ↔ PairPresent g a b ∨ (a = v ∧ b = u) := by
  rw [PairPresent, PairPresent, gget_setEdge u c hv]
  by_cases ha : a = v
  · subst ha
    rw [if_pos rfl]
    by_cases hb : b = u
    · subst hb
      rw [aget_aset_self]
      simp
    · rw [aget_aset_ne _ _ hb]
      simp [hb]
  · rw [if_neg ha]
    simp [ha]

theorem gkeys_setEdge (g : Graph) (v u : Node) (c : Int) :
    gkeys (setEdge g v u c) = gkeys g := by
  rw [setEdge, gkeys, gkeys, keys_amod]

theorem nodup_aset_keys {β : Type} {l : List (Node × β)} {v : Node} (x : β)
    (h : (l.map Prod.fst).Nodup) : ((aset l v x).map Prod.fst).Nodup := by
  by_cases hv : v ∈ l.map Prod.fst
  · rw [keys_aset_of_mem _ hv]; exact h
  · rw [keys_aset_of_not_mem _ hv, List.nodup_append]
    refine ⟨h, by simp, ?_⟩
    intro a ha hmem
    have : a = v := by simpa using hmem
    exact hv (this ▸ ha)

theorem adjNodup_setEdge {g : Graph} (h : AdjNodup g) (v u : Node) (c : Int) :
    AdjNodup (setEdge g v u c) := by
  intro ua hua
  rcases mem_amod hua with hm | ⟨y, hy, hp⟩
  · exact h ua hm
  · rw [hp]
    exact nodup_aset_keys c (h (ua.1, y) hy)

theorem nonnegCaps_setEdge {g : Graph} (h : NonnegCaps g) (v u : Node) {c : Int}
    (hc : 0 ≤ c) : NonnegCaps (setEdge g v u c) := by
  intro ua hua
  rcases mem_amod hua with hm | ⟨y, hy, hp⟩
  · exact h ua hm
  · intro vc hvc
    rw [hp] at hvc
    rcases mem_aset hvc with hm2 | hm2
    · exact h (ua.1, y) hy vc hm2
    · rw [hm2]
      exact hc

theorem addRev1_pairPresent (g : Graph) (u v a b : Node) :
    PairPresent (addRev1 g u v) a b ↔ PairPresent g a b ∨ (a = v ∧ b = u) := by
  rw [addRev1]
  by_cases htest : (aget (gget (ensureKey g v) v) u).isSome
  · rw [if_pos htest]
    rw [pairPresent_ensureKey]
    constructor
    · exact Or.inl
    · rintro (h | ⟨rfl, rfl⟩)
      · exact h
      · rw [gget_ensureKey] at htest
        exact htest
  · rw [if_neg htest]
    have hv : (aget (ensureKey g v) v).isSome := by
      have := self_mem_keys_ensureKey g v
      exact aget_isSome_of_mem_keys this
    rw [pairPresent_setEdge u 0 hv, pairPresent_ensureKey]

theorem addRev1_mem_keys {g : Graph} {x : Node} (u v : Node) (h : x ∈ gkeys g) :
    x ∈ gkeys (addRev1 g u v) := by
  rw [addRev1]
  by_cases htest : (aget (gget (ensureKey g v) v) u).isSome
  · rw [if_pos htest]
    exact mem_keys_ensureKey h
  · rw [if_neg htest, gkeys_setEdge]
    exact mem_keys_ensureKey h

theorem addRev1_v_mem_keys (g : Graph) (u v : Node) :
    v ∈ gkeys (addRev1 g u v) := by
  rw [addRev1]
  by_cases htest : (aget (gget (ensureKey g v) v) u).isSome
  · rw [if_pos htest]
    exact self_mem_keys_ensureKey g v
  · rw [if_neg htest, gkeys_setEdge]
    exact self_mem_keys_ensureKey g v

theorem addRev1_keysNodup {g : Graph} (h : KeysNodup g) (u v : Node) :
    KeysNodup (addRev1 g u v) := by
  rw [addRev1]
  by_cases htest : (aget (gget (ensureKey g v) v) u).isSome
  · rw [if_pos htest]
    exact keysNodup_ensureKey h v
  · rw [if_neg htest, KeysNodup, gkeys_setEdge]
    exact keysNodup_ensureKey h v

theorem addRev1_adjNodup {g : Graph} (h : AdjNodup g) (u v : Node) :
    AdjNodup (addRev1 g u v) := by
  rw [addRev1]
  by_cases htest : (aget (gget (ensureKey g v) v) u).isSome
  · rw [if_pos htest]
    exact adjNodup_ensureKey h v
  · rw [if_neg htest]
    exact adjNodup_setEdge (adjNodup_ensureKey h v) v u 0

theorem addRev1_nonnegCaps {g : Graph} (h : NonnegCaps g) (u v : Node) :
    NonnegCaps (addRev1 g u v) := by
  rw [addRev1]
  by_cases htest : (aget (gget (ensureKey g v) v) u).isSome
  · rw [if_pos htest]
    exact nonnegCaps_ensureKey h v
  · rw [if_neg htest]
    exact nonnegCaps_setEdge (nonnegCaps_ensureKey h v) v u (le_refl 0)

theorem innerFold_props (u : Node) :
    ∀ (vs : List Node) (g : Graph),
      (∀ a b, PairPresent (vs.foldl (fun g2 v => addRev1 g2 u v) g) a b ↔
        PairPresent g a b ∨ (b = u ∧ a ∈ vs)) ∧
      (∀ x, x ∈ gkeys g → x ∈ gkeys (vs.foldl (fun g2 v => addRev1 g2 u v) g)) ∧
      (∀ v ∈ vs, v ∈ gkeys (vs.foldl (fun g2 v => addRev1 g2 u v) g)) ∧
      (KeysNodup g → KeysNodup (vs.foldl (fun g2 v => addRev1 g2 u v) g)) ∧
      (AdjNodup g → AdjNodup (vs.foldl (fun g2 v => addRev1 g2 u v) g)) ∧
      (NonnegCaps g → NonnegCaps (vs.foldl (fun g2 v => addRev1 g2 u v) g)) := by
  intro vs
  induction vs with
  | nil =>
    intro g
    refine ⟨?_, ?_, ?_, ?_, ?_, ?_⟩ <;> simp
  | cons v0 rest ih =>
    intro g
    obtain ⟨ihP, ihK, ihV, ihN, ihA, ihG⟩ := ih (addRev1 g u v0)
    rw [List.foldl_cons]
    refine ⟨?_, ?_, ?_, ?_, ?_, ?_⟩
    · intro a b
      rw [ihP a b, addRev1_pairPresent]
      constructor
      · rintro ((h | ⟨rfl, rfl⟩) | ⟨rfl, hm⟩)
        · exact Or.inl h
        · exact Or.inr ⟨rfl, by simp⟩
        · exact Or.inr ⟨rfl, List.mem_cons_of_mem _ hm⟩
      · rintro (h | ⟨rfl, hm⟩)
        · exact Or.inl (Or.inl h)
        · rcases List.mem_cons.mp hm with h | h
          · exact Or.inl (Or.inr ⟨h, rfl⟩)
          · exact Or.inr ⟨rfl, h⟩
    · intro x hx
      exact ihK x (addRev1_mem_keys u v0 hx)
    · intro v hv
      rcases List.mem_cons.mp hv with h | h
      · exact h ▸ ihK v0 (addRev1_v_mem_keys g u v0)
      · exact ihV v h
    · intro h
      exact ihN (addRev1_keysNodup h u v0)
    · intro h
      exact ihA (addRev1_adjNodup h u v0)
    · intro h
      exact ihG (addRev1_nonnegCaps h u v0)

theorem outerFold_props :
    ∀ (ks : List Node) (g : Graph),
      KeysNodup g → AdjNodup g → NonnegCaps g →
      (∀ a b, PairPresent g a b → PairPresent g b a ∨ a ∈ ks) →
      (∀ a b, PairPresent g a b → b ∈ gkeys g ∨ a ∈ ks) →
      (∀ x ∈ ks, x ∈ gkeys g) →
      (let g' := ks.foldl (fun g u =>
          ((gget g u).map Prod.fst).foldl (fun g2 v => addRev1 g2 u v) g) g
       KeysNodup g' ∧ AdjNodup g' ∧ NonnegCaps g' ∧
       (∀ a b, PairPresent g' a b → PairPresent g' b a) ∧
       (∀ a b, PairPresent g' a b → b ∈ gkeys g') ∧
       (∀ x, x ∈ gkeys g → x ∈ gkeys g')) := by
  intro ks
  induction ks with
  | nil =>
    intro g h1 h2 h3 hB hC hK
    refine ⟨h1, h2, h3, ?_, ?_, ?_⟩
    · intro a b hab
      rcases hB a b hab with h | h
      · exact h
      · simp at h
    · intro a b hab
      rcases hC a b hab with h | h
      · exact h
      · simp at h
    · intro x hx
      exact hx
  | cons u rest ihrest =>
    intro g h1 h2 h3 hB hC hK
    rw [List.foldl_cons]
    obtain ⟨iP, iK, iV, iN, iA, iG⟩ := innerFold_props u ((gget g u).map Prod.fst) g
    set g1 := ((gget g u).map Prod.fst).foldl (fun g2 v => addRev1 g2 u v) g with hg1
    have hB1 : ∀ a b, PairPresent g1 a b → PairPresent g1 b a ∨ a ∈ rest := by
      intro a b hab
      rcases (iP a b).mp hab with h | ⟨heq, hm⟩
      · rcases hB a b h with h2' | h2'
        · exact Or.inl ((iP b a).mpr (Or.inl h2'))
        · rcases List.mem_cons.mp h2' with h3' | h3'
          · subst h3'
            left
            apply (iP b a).mpr
            exact Or.inr ⟨rfl, mem_keys_of_pairPresent h⟩
          · exact Or.inr h3'
      · left
        rw [heq]
        apply (iP u a).mpr
        left
        exact aget_isSome_of_mem_keys hm
    have hC1 : ∀ a b, PairPresent g1 a b → b ∈ gkeys g1 ∨ a ∈ rest := by
      intro a b hab
      rcases (iP a b).mp hab with h | ⟨heq, hm⟩
      · rcases hC a b h with h2' | h2'
        · exact Or.inl (iK b h2')
        · rcases List.mem_cons.mp h2' with h3' | h3'
          · subst h3'
            exact Or.inl (iV b (mem_keys_of_pairPresent h))
          · exact Or.inr h3'
      · left
        rw [heq]
        exact iK u (hK u (List.mem_cons_self _ _))
    have hK1 : ∀ x ∈ rest, x ∈ gkeys g1 := by
      intro x hx
      exact iK x (hK x (List.mem_cons_of_mem _ hx))
    obtain ⟨r1, r2, r3, r4, r5, r6⟩ := ihrest g1 (iN h1) (iA h2) (iG h3) hB1 hC1 hK1
    exact ⟨r1, r2, r3, r4, r5, fun x hx => r6 x (iK x hx)⟩

/-- The residual graph built by the drivers from a well-formed non-negative
input graph has no duplicate keys, no duplicate adjacency entries,
non-negative capacities, a reverse entry for every edge, and every
neighbour as a key. -/
theorem buildResidual_props {g0 : Graph} (h1 : KeysNodup g0) (h2 : AdjNodup g0)
    (h3 : NonnegCaps g0) :
    KeysNodup (buildResidual g0) ∧ AdjNodup (buildResidual g0) ∧
    NonnegCaps (buildResidual g0) ∧ SymPairs (buildResidual g0) ∧
    ClosedGraph (buildResidual g0) := by
  rw [buildResidual, buildCopy_eq h1 h2, addReverse]
  have hout := outerFold_props (gkeys g0) g0 h1 h2 h3
    (fun a b hab => Or.inr (by
      rw [PairPresent] at hab
      cases hg : aget g0 a with
      | none => rw [gget, hg] at hab; simp [aget] at hab
      | some adj => exact List.mem_map.mpr ⟨(a, adj), mem_of_aget hg, rfl⟩))
    (fun a b hab => Or.inr (by
      rw [PairPresent] at hab
      cases hg : aget g0 a with
      | none => rw [gget, hg] at hab; simp [aget] at hab
      | some adj => exact List.mem_map.mpr ⟨(a, adj), mem_of_aget hg, rfl⟩))
    (fun x hx => hx)
  obtain ⟨jN, jA, jG, jS, jC, jK⟩ := hout
  refine ⟨jN, jA, jG, jS, ?_⟩
  intro ua hua vc hvc
  have hpp : PairPresent
      ((gkeys g0).foldl (fun g u =>
        ((gget g u).map Prod.fst).foldl (fun g2 v => addRev1 g2 u v) g) g0) ua.1 vc.1 := by
    rw [PairPresent]
    have hg : aget ((gkeys g0).foldl (fun g u =>
        ((gget g u).map Prod.fst).foldl (fun g2 v => addRev1 g2 u v) g) g0) ua.1 =
        some ua.2 := aget_of_mem_nodup hua jN
    rw [gget, hg]
    simp only [Option.getD_some]
    exact aget_isSome_of_mem_keys (List.mem_map.mpr ⟨vc, hvc, rfl⟩)
  exact jC ua.1 vc.1 hpp

/-! ## Augmentation preserves the residual-graph well-formedness -/

theorem gkeys_incEdge (g : Graph) (u v : Node) (k : Int) :
    gkeys (incEdge g u v k) = gkeys g := by
  rw [incEdge, gkeys, gkeys, keys_amod]

theorem gkeys_augment (g : Graph) (p : List (Node × Node)) (d : Int) :
    gkeys (augment g p d) = gkeys g := by
  induction p generalizing g with
  | nil => rfl
  | cons e rest ih =>
    rw [show augment g (e :: rest) d =
      augment (incEdge (incEdge g e.1 e.2 (-d)) e.2 e.1 d) rest d by simp [augment]]
    rw [ih, gkeys_incEdge, gkeys_incEdge]

theorem adjNodup_incEdge {g : Graph} (h : AdjNodup g) (u v : Node) (k : Int) :
    AdjNodup (incEdge g u v k) := by
  intro ua hua
  rcases mem_amod hua with hm | ⟨y, hy, hp⟩
  · exact h ua hm
  · rw [hp]
    have := h (ua.1, y) hy
    simpa [keys_amod] using this

theorem adjNodup_augment {g : Graph} (h : AdjNodup g) (p : List (Node × Node))
    (d : Int) : AdjNodup (augment g p d) := by
  induction p generalizing g with
  | nil => exact h
  | cons e rest ih =>
    rw [show augment g (e :: rest) d =
      augment (incEdge (incEdge g e.1 e.2 (-d)) e.2 e.1 d) rest d by simp [augment]]
    exact ih (adjNodup_incEdge (adjNodup_incEdge h e.1 e.2 (-d)) e.2 e.1 d)

theorem pairPresent_augment (g : Graph) (p : List (Node × Node)) (d : Int)
    (a b : Node) : PairPresent (augment g p d) a b ↔ PairPresent g a b := by
  induction p generalizing g with
  | nil => exact Iff.rfl
  | cons e rest ih =>
    rw [show augment g (e :: rest) d =
      augment (incEdge (incEdge g e.1 e.2 (-d)) e.2 e.1 d) rest d by simp [augment]]
    rw [ih, pairPresent_incEdge, pairPresent_incEdge]

theorem capAt_nonneg {g : Graph} (h : NonnegCaps g) (u v : Node) :
    0 ≤ capAt g u v := by
  rw [capAt]
  cases hp : aget (gget g u) v with
  | none => simp
  | some c =>
    simp only [Option.getD_some]
    cases hg : aget g u with
    | none => rw [gget, hg] at hp; simp [aget] at hp
    | some a =>
      rw [gget, hg] at hp
      simp only [Option.getD_some] at hp
      exact h (u, a) (mem_of_aget hg) (v, c) (mem_of_aget hp)

theorem nonnegCaps_of_capAt {g : Graph} (hK : KeysNodup g) (hA : AdjNodup g)
    (h : ∀ u v, 0 ≤ capAt g u v) : NonnegCaps g := by
  intro ua hua vc hvc
  have h1 : aget g ua.1 = some ua.2 := aget_of_mem_nodup hua hK
  have h2 : aget (gget g ua.1) vc.1 = some vc.2 := by
    rw [gget, h1]
    exact aget_of_mem_nodup hvc (hA ua hua)
  have := h ua.1 vc.1
  rw [capAt, h2] at this
  simpa using this

theorem minCaps_fold_le (g : Graph) :
    ∀ (p : List (Node × Node)) (acc : Cap) (d : Int),
      p.foldl (fun f e => capMin f (capAt g e.1 e.2)) acc = Cap.num d →
      (∀ e ∈ p, d ≤ capAt g e.1 e.2) ∧
      (acc = Cap.inf ∨ ∃ a, acc = Cap.num a ∧ d ≤ a) := by
  intro p
  induction p with
  | nil =>
    intro acc d h
    simp only [List.foldl_nil] at h
    exact ⟨by simp, Or.inr ⟨d, h, le_refl d⟩⟩
  | cons e rest ih =>
    intro acc d h
    rw [List.foldl_cons] at h
    obtain ⟨h1, h2⟩ := ih (capMin acc (capAt g e.1 e.2)) d h
    cases acc with
    | inf =>
      rcases h2 with h2 | ⟨a, ha, hda⟩
      · rw [capMin] at h2; cases h2
      · rw [capMin] at ha
        have : capAt g e.1 e.2 = a := Cap.num.inj ha
        constructor
        · intro q hq
          rcases List.mem_cons.mp hq with hq | hq
          · rw [hq, this]; exact hda
          · exact h1 q hq
        · exact Or.inl rfl
    | num a0 =>
      rcases h2 with h2 | ⟨a, ha, hda⟩
      · rw [capMin] at h2; cases h2
      · rw [capMin] at ha
        have hmin : min a0 (capAt g e.1 e.2) = a := Cap.num.inj ha
        constructor
        · intro q hq
          rcases List.mem_cons.mp hq with hq | hq
          · rw [hq]
            have : a ≤ capAt g e.1 e.2 := hmin ▸ min_le_right a0 _
            omega
          · exact h1 q hq
        · refine Or.inr ⟨a0, rfl, ?_⟩
          have : a ≤ a0 := hmin ▸ min_le_left a0 _
          omega

theorem minCaps_fold_attained (g : Graph) :
    ∀ (p : List (Node × Node)) (acc : Cap) (d : Int),
      p.foldl (fun f e => capMin f (capAt g e.1 e.2)) acc = Cap.num d →
      acc = Cap.num d ∨ ∃ e ∈ p, capAt g e.1 e.2 = d := by
  intro p
  induction p with
  | nil =>
    intro acc d h
    simp only [List.foldl_nil] at h
    exact Or.inl h
  | cons e rest ih =>
    intro acc d h
    rw [List.foldl_cons] at h
    rcases ih (capMin acc (capAt g e.1 e.2)) d h with h2 | ⟨q, hq, hcap⟩
    · cases acc with
      | inf =>
        rw [capMin] at h2
        exact Or.inr ⟨e, List.mem_cons_self _ _, Cap.num.inj h2⟩
      | num a0 =>
        rw [capMin] at h2
        have hmin := Cap.num.inj h2
        rcases min_choice a0 (capAt g e.1 e.2) with hc | hc
        · exact Or.inl (by rw [← hmin, hc])
        · exact Or.inr ⟨e, List.mem_cons_self _ _, by rw [← hmin, hc]⟩
    · exact Or.inr ⟨q, List.mem_cons_of_mem _ hq, hcap⟩

theorem minCaps_pos {g : Graph} {p : List (Node × Node)} {d : Int}
    (hpos : ∀ e ∈ p, 0 < capAt g e.1 e.2) (hmin : minCaps g p = Cap.num d) :
    0 < d := by
  rcases minCaps_fold_attained g p Cap.inf d hmin with h | ⟨e, he, hcap⟩
  · cases h
  · rw [← hcap]
    exact hpos e he

theorem count_le_one_of_srcs_nodup :
    ∀ (p : List (Node × Node)), (pathSrcs p).Nodup → ∀ x y, p.count (x, y) ≤ 1 := by
  intro p
  induction p with
  | nil => intro _ x y; simp
  | cons e rest ih =>
    intro hnd x y
    rw [pathSrcs, List.map_cons, List.nodup_cons] at hnd
    by_cases he : e = (x, y)
    · have hzero : rest.count (x, y) = 0 := by
        rw [List.count_eq_zero]
        intro hmem
        apply hnd.1
        have hx : ((x, y) : Node × Node).1 ∈ List.map Prod.fst rest :=
          List.mem_map.mpr ⟨(x, y), hmem, rfl⟩
        rw [he]
        exact hx
      rw [List.count_cons, hzero]
      simp [he]
    · have h2 := ih hnd.2 x y
      rw [List.count_cons]
      simp only [beq_iff_eq, he, if_false]
      omega

/-- The states of the `fordFulkerson` driver loop: the freshly built residual
graph, then each augmentation the driver performs (a successful search whose
bottleneck is a non-zero integer, followed by the skew-symmetric update). -/
inductive FFReach (g0 : Graph) : Graph → Prop
  | base : FFReach g0 (buildResidual g0)
  | step {g : Graph} {p : List (Node × Node)} {d : Int} {fuel : Nat} :
      FFReach g0 g → augmentedPath g "s" "t" fuel = some (some p, Cap.num d) →
      d ≠ 0 → FFReach g0 (augment g p d)

/-- Soundness of `augmentedPath` over any graph with duplicate-free
adjacency dicts. -/
theorem augmentedPath_sound {g : Graph} {s t : Node} {fuel : Nat}
    {r : Option (List (Node × Node)) × Cap} (hA : AdjNodup g)
    (h : augmentedPath g s t fuel = some r) :
    (r.1 = none → r = (none, Cap.num 0) ∧ ¬PosPath g s t) ∧
    (∀ p b, r = (some p, b) →
      EdgeChain s p t ∧ (∀ e ∈ p, 0 < capAt g e.1 e.2) ∧ b = minCaps g p ∧
      (pathSrcs p).Nodup ∧ t ∉ pathSrcs p) := by
  apply dfsLoop_sound g s t hA fuel [(s, Cap.inf, [])] [] ?_ ?_ ?_ r h
  · intro e he
    have : e = (s, Cap.inf, []) := by simpa using he
    subst this
    exact ⟨rfl, by simp, rfl, by simp [pathSrcs], by simp [pathSrcs], by simp [pathSrcs]⟩
  · exact ⟨by simp, by simp⟩
  · exact Or.inr (by simp [stackNodes])

/-- `augmentedPath` terminates on every closed graph. -/
theorem augmentedPath_term (g : Graph) (s t : Node) (hC : ClosedGraph g) :
    ∃ fuel r, augmentedPath g s t fuel = some r := by
  apply dfsLoop_term g s t hC (UCount g s []) 1 [(s, Cap.inf, [])] []
  · intro e he
    have : e = (s, Cap.inf, []) := by simpa using he
    subst this
    simp
  · exact le_refl _
  · simp

/-- The well-formedness invariant the Ford-Fulkerson loop maintains on its
residual graph. -/
def FFInv (g : Graph) : Prop :=
  KeysNodup g ∧ AdjNodup g ∧ SymPairs g ∧
  (∀ a b, PairPresent g a b → b ∈ gkeys g) ∧ NonnegCaps g

theorem mem_count_pos {p : List (Node × Node)} {e : Node × Node} :
    e ∈ p ↔ 0 < p.count e := List.count_pos_iff.symm

theorem ffReach_inv {g0 : Graph} (h1 : KeysNodup g0) (h2 : AdjNodup g0)
    (h3 : NonnegCaps g0) : ∀ g, FFReach g0 g → FFInv g := by
  intro g hg
  induction hg with
  | base =>
    obtain ⟨j1, j2, j3, j4, j5⟩ := buildResidual_props h1 h2 h3
    refine ⟨j1, j2, j4, ?_, j3⟩
    intro a b hab
    rw [PairPresent] at hab
    cases hp : aget (gget (buildResidual g0) a) b with
    | none => rw [hp] at hab; simp at hab
    | some c =>
      cases hga : aget (buildResidual g0) a with
      | none => rw [gget, hga] at hp; simp [aget] at hp
      | some adj =>
        rw [gget, hga] at hp
        simp only [Option.getD_some] at hp
        exact j5 (a, adj) (mem_of_aget hga) (b, c) (mem_of_aget hp)
  | step hreach hpath hd ih =>
    rename_i g' p d fuel
    obtain ⟨i1, i2, i3, i4, i5⟩ := ih
    have hsound := (augmentedPath_sound i2 hpath).2 p (Cap.num d) rfl
    obtain ⟨hchain, hpos, hmin, hnd, hnott⟩ := hsound
    have hpres : ∀ e ∈ p, PairPresent g' e.1 e.2 ∧ PairPresent g' e.2 e.1 := by
      intro e he
      have h1 := pairPresent_of_capAt_pos (hpos e he)
      exact ⟨h1, i3 _ _ h1⟩
    have hdpos : 0 < d := minCaps_pos hpos hmin.symm
    have hle : ∀ e ∈ p, d ≤ capAt g' e.1 e.2 :=
      (minCaps_fold_le g' p Cap.inf d hmin.symm).1
    have hcapnn : ∀ x y, 0 ≤ capAt (augment g' p d) x y := by
      intro x y
      rw [capAt_augment hpres x y]
      by_cases hxy : (x, y) ∈ p
      · have hc1 : p.count (x, y) = 1 := by
          have := count_le_one_of_srcs_nodup p hnd x y
          have := mem_count_pos.mp hxy
          omega
        have hcap : d ≤ capAt g' x y := hle (x, y) hxy
        have hcnt2 : (0 : Int) ≤ d * (p.count (y, x) : Int) := by positivity
        rw [hc1]
        push_cast
        omega
      · have hc0 : p.count (x, y) = 0 := by
          rw [List.count_eq_zero]
          exact hxy
        have hnn := capAt_nonneg i5 x y
        have hcnt2 : (0 : Int) ≤ d * (p.count (y, x) : Int) := by positivity
        rw [hc0]
        push_cast
        omega
    refine ⟨?_, adjNodup_augment i2 p d, ?_, ?_, ?_⟩
    · rw [KeysNodup, gkeys_augment]
      exact i1
    · intro a b hab
      rw [pairPresent_augment] at hab ⊢
      exact i3 a b hab
    · intro a b hab
      rw [pairPresent_augment] at hab
      rw [gkeys_augment]
      exact i4 a b hab
    · apply nonnegCaps_of_capAt _ (adjNodup_augment i2 p d) hcapnn
      rw [KeysNodup, gkeys_augment]
      exact i1

/-! ## Preflow-push: state-map lemmas -/

theorem fget_fset_self (m : List ((Node × Node) × Int)) (u v : Node) (x : Int) :
    fget (fset m u v x) u v = x := by
  induction m with
  | nil => simp [fget, fset]
  | cons p rest ih =>
    obtain ⟨k, y⟩ := p
    by_cases h : k = (u, v)
    · simp [fset, h, fget]
    · simp [fset, h, fget, ih]

theorem fget_fset_ne (m : List ((Node × Node) × Int)) {u v a b : Node} (x : Int)
    (h : (a, b) ≠ (u, v)) : fget (fset m u v x) a b = fget m a b := by
  have hrev : ¬((u, v) = (a, b)) := fun hq => h hq.symm
  induction m with
  | nil =>
    show (if ((u, v) : Node × Node) = (a, b) then x else (0 : Int)) = (0 : Int)
    rw [if_neg hrev]
  | cons p rest ih =>
    obtain ⟨k, y⟩ := p
    rw [fset]
    by_cases hk : k = (u, v)
    · rw [if_pos hk]
      subst hk
      show (if ((u, v) : Node × Node) = (a, b) then x else fget rest a b) =
        if ((u, v) : Node × Node) = (a, b) then y else fget rest a b
      rw [if_neg hrev, if_neg hrev]
    · rw [if_neg hk]
      show (if k = (a, b) then y else fget (fset rest u v x) a b) =
        if k = (a, b) then y else fget rest a b
      by_cases hab : k = (a, b)
      · rw [if_pos hab, if_pos hab]
      · rw [if_neg hab, if_neg hab, ih]

theorem xget_xset_self {β : Type} [Zero β] (m : List (Node × β)) (u : Node) (x : β) :
    xget (xset m u x) u = x := by
  induction m with
  | nil => simp [xget, xset]
  | cons p rest ih =>
    obtain ⟨k, y⟩ := p
    by_cases h : k = u
    · simp [xset, h, xget]
    · simp [xset, h, xget, ih]

theorem xget_xset_ne {β : Type} [Zero β] (m : List (Node × β)) {u w : Node} (x : β)
    (h : w ≠ u) : xget (xset m u x) w = xget m w := by
  have hrev : ¬(u = w) := fun hq => h hq.symm
  induction m with
  | nil =>
    show (if u = w then x else (0 : β)) = (0 : β)
    rw [if_neg hrev]
  | cons p rest ih =>
    obtain ⟨k, y⟩ := p
    rw [xset]
    by_cases hk : k = u
    · rw [if_pos hk]
      have hrev2 : ¬(k = w) := fun hq => hrev (hk.symm.trans hq)
      show (if u = w then x else xget rest w) = if k = w then y else xget rest w
      rw [if_neg hrev, if_neg hrev2]
    · rw [if_neg hk]
      show (if k = w then y else xget (xset rest u x) w) =
        if k = w then y else xget rest w
      by_cases hw : k = w
      · rw [if_pos hw, if_pos hw]
      · rw [if_neg hw, if_neg hw, ih]

/-- The amount `_push(u, v)` moves: `min(excess[u], graph[u][v] - flow[u][v])`. -/
def ppDelta (g : Graph) (st : PPState) (u v : Node) : Int :=
  min (xget st.excess u) (capAt g u v - fget st.flow u v)

theorem ppPush_height_eq (g : Graph) (st : PPState) (u v : Node) :
    (ppPush g st u v).height = st.height := rfl

theorem ppPush_flow_eq (g : Graph) (st : PPState) {u v : Node} (hne : u ≠ v) :
    (ppPush g st u v).flow =
      fset (fset st.flow u v (fget st.flow u v + ppDelta g st u v)) v u
        (fget st.flow v u - ppDelta g st u v) := by
  have hvu : ((v, u) : Node × Node) ≠ (u, v) := fun h => hne (Prod.mk.inj h).2
  simp only [ppPush, ppDelta]
  rw [fget_fset_ne _ _ hvu]

theorem ppPush_excess_eq (g : Graph) (st : PPState) {u v : Node} (hne : u ≠ v) :
    (ppPush g st u v).excess =
      xset (xset st.excess u (xget st.excess u - ppDelta g st u v)) v
        (xget st.excess v + ppDelta g st u v) := by
  have hvu : v ≠ u := Ne.symm hne
  simp only [ppPush, ppDelta]
  rw [xget_xset_ne _ _ hvu]

theorem ppPush_fget (g : Graph) (st : PPState) {u v : Node} (hne : u ≠ v) (a b : Node) :
    fget (ppPush g st u v).flow a b =
      if (a, b) = (v, u) then fget st.flow v u - ppDelta g st u v
      else if (a, b) = (u, v) then fget st.flow u v + ppDelta g st u v
      else fget st.flow a b := by
  rw [ppPush_flow_eq g st hne]
  by_cases h1 : (a, b) = (v, u)
  · obtain ⟨ha, hb⟩ := Prod.mk.inj h1
    subst ha
    subst hb
    rw [if_pos rfl, fget_fset_self]
  · rw [if_neg h1, fget_fset_ne _ _ h1]
    by_cases h2 : (a, b) = (u, v)
    · obtain ⟨ha, hb⟩ := Prod.mk.inj h2
      subst ha
      subst hb
      rw [if_pos rfl, fget_fset_self]
    · rw [if_neg h2, fget_fset_ne _ _ h2]

theorem ppPush_xget (g : Graph) (st : PPState) {u v : Node} (hne : u ≠ v) (w : Node) :
    xget (ppPush g st u v).excess w =
      if w = v then xget st.excess v + ppDelta g st u v
      else if w = u then xget st.excess u - ppDelta g st u v
      else xget st.excess w := by
  rw [ppPush_excess_eq g st hne]
  by_cases h1 : w = v
  · subst h1
    rw [if_pos rfl, xget_xset_self]
  · rw [if_neg h1, xget_xset_ne _ _ h1]
    by_cases h2 : w = u
    · subst h2
      rw [if_pos rfl, xget_xset_self]
    · rw [if_neg h2, xget_xset_ne _ _ h2]

theorem adjNodup_gget {g : Graph} (hA : AdjNodup g) (w : Node) :
    ((gget g w).map Prod.fst).Nodup := by
  cases hg : aget g w with
  | none => rw [gget, hg]; simp
  | some a =>
    rw [gget, hg]
    exact hA (w, a) (mem_of_aget hg)

theorem nonneg_of_mem_adj {g : Graph} (hG : NonnegCaps g) {w : Node}
    {vc : Node × Int} (hmem : vc ∈ gget g w) : 0 ≤ vc.2 := by
  cases hg : aget g w with
  | none => rw [gget, hg] at hmem; simp at hmem
  | some a =>
    rw [gget, hg] at hmem
    simp only [Option.getD_some] at hmem
    exact hG (w, a) (mem_of_aget hg) vc hmem

theorem pairPresent_of_mem_adj {g : Graph} {w : Node} {vc : Node × Int}
    (hmem : vc ∈ gget g w) : PairPresent g w vc.1 :=
  aget_isSome_of_mem_keys (List.mem_map.mpr ⟨vc, hmem, rfl⟩)

/-! ## Preflow-push: the invariants -/

/-- The total flow out of `u`, summed over its adjacency entries. -/
def sumFlow (g : Graph) (st : PPState) (u : Node) : Int :=
  ((gget g u).map (fun vc => fget st.flow u vc.1)).sum

/-- `excess[u]` is the net inflow at `u`, for every non-source node. -/
def ExcessInv (g : Graph) (source : Node) (st : PPState) : Prop :=
  ∀ u, u ≠ source → xget st.excess u = -(sumFlow g st u)

/-- The push-relabel height validity: a positive-residual edge never climbs
more than one level. -/
def HeightsInv (g : Graph) (st : PPState) : Prop :=
  ∀ u, ∀ vc ∈ gget g u, 0 < vc.2 - fget st.flow u vc.1 →
    xget st.height u ≤ xget st.height vc.1 + 1

/-- The graph shape the preflow-push engine relies on, guaranteed by its
`load_graph`: duplicate-free dicts, non-negative capacities, and a reverse
entry for every edge. -/
def PPValid (g : Graph) : Prop :=
  KeysNodup g ∧ AdjNodup g ∧ NonnegCaps g ∧ SymPairs g

/-- The states a preflow-push run passes through: the initial preflow, then
every iteration of the discharge loop applied to a non-source, non-sink
node with positive excess (which is exactly how `max_flow` and `_discharge`
drive the state). -/
inductive PPReach (g : Graph) (source sink : Node) : PPState → Prop
  | init : PPReach g source sink (initPreflow g source)
  | step {st : PPState} {u : Node} : PPReach g source sink st → u ≠ source →
      u ≠ sink → 0 < xget st.excess u →
      PPReach g source sink (dischargeBody g st u)

theorem sum_map_congr {l : List (Node × Int)} {f f2 : Node → Int}
    (h : ∀ x ∈ l.map Prod.fst, f2 x = f x) :
    (l.map (fun vc => f2 vc.1)).sum = (l.map (fun vc => f vc.1)).sum := by
  induction l with
  | nil => rfl
  | cons vc rest ih =>
    simp only [List.map_cons, List.sum_cons]
    rw [h vc.1 (by simp), ih (fun x hx => h x (by simp [hx]))]

theorem sum_map_add_once :
    ∀ (l : List (Node × Int)) (f f2 : Node → Int) (v : Node) (δ : Int),
      (l.map Prod.fst).Nodup → v ∈ l.map Prod.fst →
      (∀ x ∈ l.map Prod.fst, x ≠ v → f2 x = f x) → f2 v = f v + δ →
      (l.map (fun vc => f2 vc.1)).sum = (l.map (fun vc => f vc.1)).sum + δ := by
  intro l
  induction l with
  | nil => intro f f2 v δ _ hv; simp at hv
  | cons vc rest ih =>
    intro f f2 v δ hnd hv hother hveq
    simp only [List.map_cons, List.nodup_cons] at hnd
    simp only [List.map_cons, List.sum_cons]
    rcases List.mem_cons.mp hv with hh | hh
    · rw [hh] at hveq
      rw [hveq]
      have hrest : (rest.map (fun vc => f2 vc.1)).sum =
          (rest.map (fun vc => f vc.1)).sum := by
        apply sum_map_congr
        intro x hx
        apply hother x (by simp [hx])
        intro hxv
        exact hnd.1 ((hxv.trans hh) ▸ hx)
      rw [hrest]
      ring
    · have hne : vc.1 ≠ v := by
        intro hq
        exact hnd.1 (hq ▸ hh)
      rw [hother vc.1 (by simp) hne, ih f f2 v δ hnd.2 hh
        (fun x hx hxv => hother x (by simp [hx]) hxv) hveq]
      ring

theorem neg_entry_of_sum_neg {l : List (Node × Int)} {f : Node → Int}
    (h : (l.map (fun vc => f vc.1)).sum < 0) : ∃ vc ∈ l, f vc.1 < 0 := by
  by_contra hno
  push_neg at hno
  have : 0 ≤ (l.map (fun vc => f vc.1)).sum := by
    apply List.sum_nonneg
    intro x hx
    obtain ⟨vc, hvc, hve⟩ := List.mem_map.mp hx
    rw [← hve]
    exact hno vc hvc
  omega

theorem ppPush_excessInv {g : Graph} {source : Node} {st : PPState} {u v : Node}
    {c : Int} (hval : PPValid g) (hmem : (v, c) ∈ gget g u) (hne : u ≠ v)
    (hinv : ExcessInv g source st) : ExcessInv g source (ppPush g st u v) := by
  obtain ⟨hK, hA, hG, hS⟩ := hval
  intro w hw
  set δ := ppDelta g st u v with hδ
  by_cases hwv : w = v
  · subst hwv
    rw [ppPush_xget g st hne, if_pos rfl]
    have husym : u ∈ (gget g w).map Prod.fst :=
      mem_keys_of_pairPresent (hS u w (@pairPresent_of_mem_adj g u (w, c) hmem))
    have hsum : sumFlow g (ppPush g st u w) w = sumFlow g st w + (-δ) := by
      rw [sumFlow, sumFlow]
      apply sum_map_add_once _ _ _ u (-δ) (adjNodup_gget hA w) husym
      · intro x hx hxu
        rw [ppPush_fget g st hne]
        rw [if_neg (fun hq => hxu (Prod.mk.inj hq).2),
          if_neg (fun hq => hne (Prod.mk.inj hq).1.symm)]
      · rw [ppPush_fget g st hne, if_pos rfl]
        ring
    rw [hsum, hinv w hw]
    ring
  · by_cases hwu : w = u
    · subst hwu
      rw [ppPush_xget g st hne, if_neg hwv, if_pos rfl]
      have hvmem : v ∈ (gget g w).map Prod.fst :=
        List.mem_map.mpr ⟨(v, c), hmem, rfl⟩
      have hsum : sumFlow g (ppPush g st w v) w = sumFlow g st w + δ := by
        rw [sumFlow, sumFlow]
        apply sum_map_add_once _ _ _ v δ (adjNodup_gget hA w) hvmem
        · intro x hx hxv
          rw [ppPush_fget g st hne]
          rw [if_neg (fun hq => hne (Prod.mk.inj hq).1),
            if_neg (fun hq => hxv (Prod.mk.inj hq).2)]
        · rw [ppPush_fget g st hne,
            if_neg (fun hq => hne (Prod.mk.inj hq).1), if_pos rfl]
      rw [hsum, hinv w hw]
      ring
    · rw [ppPush_xget g st hne, if_neg hwv, if_neg hwu]
      have hsum : sumFlow g (ppPush g st u v) w = sumFlow g st w := by
        rw [sumFlow, sumFlow]
        apply sum_map_congr
        intro x hx
        rw [ppPush_fget g st hne,
          if_neg (fun hq => hwv ((Prod.mk.inj hq).1)),
          if_neg (fun hq => hwu ((Prod.mk.inj hq).1))]
      rw [hsum, hinv w hw]

theorem ppPush_heightsInv {g : Graph} {st : PPState} {u v : Node}
    (hguard : xget st.height u = xget st.height v + 1)
    (hinv : HeightsInv g st) : HeightsInv g (ppPush g st u v) := by
  have hne : u ≠ v := by
    intro h
    rw [h] at hguard
    omega
  intro w vc hvc hres
  rw [ppPush_height_eq]
  rw [ppPush_fget g st hne] at hres
  by_cases h1 : ((w, vc.1) : Node × Node) = (v, u)
  · obtain ⟨hw1, hv1⟩ := Prod.mk.inj h1
    rw [hw1, hv1]
    omega
  · rw [if_neg h1] at hres
    by_cases h2 : ((w, vc.1) : Node × Node) = (u, v)
    · obtain ⟨hw1, hv1⟩ := Prod.mk.inj h2
      rw [hw1, hv1]
      omega
    · rw [if_neg h2] at hres
      exact hinv w vc hvc hres

theorem pushPass_facts {g : Graph} {source : Node} (hval : PPValid g) (u : Node) :
    ∀ (l : List (Node × Int)) (st : PPState) (pushed : Bool),
      (∀ vc ∈ l, vc ∈ gget g u) →
      ExcessInv g source st → HeightsInv g st →
      (pushPass g u st pushed l).1.height = st.height ∧
      ExcessInv g source (pushPass g u st pushed l).1 ∧
      HeightsInv g (pushPass g u st pushed l).1 := by
  intro l
  induction l with
  | nil => intro st pushed _ hE hH; exact ⟨rfl, hE, hH⟩
  | cons vc rest ih =>
    intro st pushed hsub hE hH
    obtain ⟨v, c⟩ := vc
    rw [pushPass]
    by_cases hex : xget st.excess u = 0
    · rw [if_pos hex]
      exact ⟨rfl, hE, hH⟩
    · rw [if_neg hex]
      by_cases hguard : 0 < c - fget st.flow u v ∧
          xget st.height u = xget st.height v + 1
      · rw [if_pos hguard]
        have hne : u ≠ v := by
          intro h
          rw [h] at hguard
          omega
        obtain ⟨r1, r2, r3⟩ := ih (ppPush g st u v) true
          (fun q hq => hsub q (List.mem_cons_of_mem _ hq))
          (ppPush_excessInv hval (hsub (v, c) (List.mem_cons_self _ _)) hne hE)
          (ppPush_heightsInv hguard.2 hH)
        exact ⟨by rw [r1, ppPush_height_eq], r2, r3⟩
      · rw [if_neg hguard]
        exact ih st pushed (fun q hq => hsub q (List.mem_cons_of_mem _ hq)) hE hH

theorem foldl_min_le_init : ∀ (hs : List Nat) (h0 : Nat), hs.foldl Nat.min h0 ≤ h0 := by
  intro hs
  induction hs with
  | nil => intro h0; exact le_refl h0
  | cons x rest ih =>
    intro h0
    rw [List.foldl_cons]
    exact le_trans (ih (Nat.min h0 x)) (Nat.min_le_left h0 x)

theorem foldl_min_le_mem : ∀ (hs : List Nat) (h0 x : Nat), x ∈ hs →
    hs.foldl Nat.min h0 ≤ x := by
  intro hs
  induction hs with
  | nil => intro h0 x hx; simp at hx
  | cons y rest ih =>
    intro h0 x hx
    rw [List.foldl_cons]
    rcases List.mem_cons.mp hx with h | h
    · subst h
      exact le_trans (foldl_min_le_init rest _) (Nat.min_le_right h0 x)
    · exact ih _ x h

theorem foldl_min_ge : ∀ (hs : List Nat) (h0 L : Nat), L ≤ h0 →
    (∀ x ∈ hs, L ≤ x) → L ≤ hs.foldl Nat.min h0 := by
  intro hs
  induction hs with
  | nil => intro h0 L h _; exact h
  | cons y rest ih =>
    intro h0 L h hall
    rw [List.foldl_cons]
    exact ih _ L (le_min h (hall y (List.mem_cons_self _ _)))
      (fun x hx => hall x (List.mem_cons_of_mem _ hx))

theorem ppRelabel_flow_eq (g : Graph) (st : PPState) (u : Node) :
    (ppRelabel g st u).flow = st.flow := by
  rw [ppRelabel]
  cases ((gget g u).filter
      (fun vc => decide (0 < vc.2 - fget st.flow u vc.1))).map
      (fun vc => xget st.height vc.1) with
  | nil => rfl
  | cons h0 hs => rfl

theorem ppRelabel_excess_eq (g : Graph) (st : PPState) (u : Node) :
    (ppRelabel g st u).excess = st.excess := by
  rw [ppRelabel]
  cases ((gget g u).filter
      (fun vc => decide (0 < vc.2 - fget st.flow u vc.1))).map
      (fun vc => xget st.height vc.1) with
  | nil => rfl
  | cons h0 hs => rfl

theorem ppRelabel_facts {g : Graph} {st : PPState} {u : Node}
    (hH : HeightsInv g st)
    (hnopush : ∀ vc ∈ gget g u, ¬(0 < vc.2 - fget st.flow u vc.1 ∧
      xget st.height u = xget st.height vc.1 + 1)) :
    (∀ w, xget st.height w ≤ xget (ppRelabel g st u).height w) ∧
    HeightsInv g (ppRelabel g st u) ∧
    ((∃ vc ∈ gget g u, 0 < vc.2 - fget st.flow u vc.1) →
      xget st.height u < xget (ppRelabel g st u).height u) := by
  have hcand : ∀ vc ∈ gget g u, 0 < vc.2 - fget st.flow u vc.1 →
      xget st.height u ≤ xget st.height vc.1 := by
    intro vc hvc hres
    have h1 := hH u vc hvc hres
    have h2 := hnopush vc hvc
    by_cases he : xget st.height u = xget st.height vc.1 + 1
    · exact absurd ⟨hres, he⟩ h2
    · omega
  rw [ppRelabel]
  cases hcands : ((gget g u).filter
      (fun vc => decide (0 < vc.2 - fget st.flow u vc.1))).map
      (fun vc => xget st.height vc.1) with
  | nil =>
    refine ⟨fun w => le_refl _, hH, ?_⟩
    rintro ⟨vc, hvc, hres⟩
    exfalso
    have hmem : xget st.height vc.1 ∈ ((gget g u).filter
        (fun vc => decide (0 < vc.2 - fget st.flow u vc.1))).map
        (fun vc => xget st.height vc.1) :=
      List.mem_map.mpr ⟨vc, List.mem_filter.mpr ⟨hvc, by simpa using hres⟩, rfl⟩
    rw [hcands] at hmem
    simp at hmem
  | cons h0 hs =>
    have hmemcand : ∀ vc ∈ gget g u, 0 < vc.2 - fget st.flow u vc.1 →
        xget st.height vc.1 ∈ h0 :: hs := by
      intro vc hvc hres
      rw [← hcands]
      exact List.mem_map.mpr ⟨vc, List.mem_filter.mpr ⟨hvc, by simpa using hres⟩, rfl⟩
    have hall : ∀ x ∈ h0 :: hs, xget st.height u ≤ x := by
      intro x hx
      rw [← hcands] at hx
      obtain ⟨vc, hvc, hve⟩ := List.mem_map.mp hx
      have hf := List.mem_filter.mp hvc
      rw [← hve]
      exact hcand vc hf.1 (by simpa using hf.2)
    have hmge : xget st.height u ≤ hs.foldl Nat.min h0 :=
      foldl_min_ge hs h0 _ (hall h0 (List.mem_cons_self _ _))
        (fun x hx => hall x (List.mem_cons_of_mem _ hx))
    have hminle : ∀ x ∈ h0 :: hs, hs.foldl Nat.min h0 ≤ x := by
      intro x hx
      rcases List.mem_cons.mp hx with h | h
      · exact h ▸ foldl_min_le_init hs h0
      · exact foldl_min_le_mem hs h0 x h
    refine ⟨?_, ?_, ?_⟩
    · intro w
      show xget st.height w ≤ xget (xset st.height u (hs.foldl Nat.min h0 + 1)) w
      by_cases hw : w = u
      · rw [hw, xget_xset_self]
        omega
      · rw [xget_xset_ne _ _ hw]
    · intro w vc hvc hres
      have hres2 : 0 < vc.2 - fget st.flow w vc.1 := hres
      show xget (xset st.height u (hs.foldl Nat.min h0 + 1)) w ≤
        xget (xset st.height u (hs.foldl Nat.min h0 + 1)) vc.1 + 1
      by_cases hwu : w = u
      · by_cases hvu : vc.1 = u
        · rw [hwu, hvu, xget_xset_self]
          omega
        · rw [hwu, xget_xset_self, xget_xset_ne _ _ hvu]
          have hres3 : 0 < vc.2 - fget st.flow u vc.1 := by
            rw [← hwu]
            exact hres2
          have hvc3 : vc ∈ gget g u := by
            rw [← hwu]
            exact hvc
          have hle2 := hminle _ (hmemcand vc hvc3 hres3)
          omega
      · rw [xget_xset_ne _ _ hwu]
        by_cases hvu : vc.1 = u
        · rw [hvu, xget_xset_self]
          have hold := hH w vc hvc hres2
          rw [hvu] at hold
          omega
        · rw [xget_xset_ne _ _ hvu]
          exact hH w vc hvc hres2
    · intro _
      show xget st.height u < xget (xset st.height u (hs.foldl Nat.min h0 + 1)) u
      rw [xget_xset_self]
      omega

theorem pushPass_snd_true (g : Graph) (u : Node) :
    ∀ (l : List (Node × Int)) (st : PPState),
      (pushPass g u st true l).2 = true := by
  intro l
  induction l with
  | nil => intro st; rfl
  | cons vc rest ih =>
    intro st
    obtain ⟨v, c⟩ := vc
    rw [pushPass]
    by_cases hex : xget st.excess u = 0
    · rw [if_pos hex]
    · rw [if_neg hex]
      by_cases hguard : 0 < c - fget st.flow u v ∧
          xget st.height u = xget st.height v + 1
      · rw [if_pos hguard]
        exact ih _
      · rw [if_neg hguard]
        exact ih _

theorem pushPass_false_state (g : Graph) (u : Node) :
    ∀ (l : List (Node × Int)) (st : PPState),
      (pushPass g u st false l).2 = false → (pushPass g u st false l).1 = st := by
  intro l
  induction l with
  | nil => intro st _; rfl
  | cons vc rest ih =>
    intro st hsnd
    obtain ⟨v, c⟩ := vc
    rw [pushPass] at hsnd ⊢
    by_cases hex : xget st.excess u = 0
    · rw [if_pos hex]
    · rw [if_neg hex] at hsnd ⊢
      by_cases hguard : 0 < c - fget st.flow u v ∧
          xget st.height u = xget st.height v + 1
      · rw [if_pos hguard] at hsnd
        rw [pushPass_snd_true] at hsnd
        cases hsnd
      · rw [if_neg hguard] at hsnd ⊢
        exact ih st hsnd

theorem pushPass_false_noguard (g : Graph) (u : Node) :
    ∀ (l : List (Node × Int)) (st : PPState),
      (pushPass g u st false l).2 = false → 0 < xget st.excess u →
      ∀ vc ∈ l, ¬(0 < vc.2 - fget st.flow u vc.1 ∧
        xget st.height u = xget st.height vc.1 + 1) := by
  intro l
  induction l with
  | nil => intro st _ _ vc hvc; simp at hvc
  | cons wc rest ih =>
    intro st hsnd hex vc hvc
    obtain ⟨v, c⟩ := wc
    rw [pushPass] at hsnd
    rw [if_neg (by omega : ¬xget st.excess u = 0)] at hsnd
    by_cases hguard : 0 < c - fget st.flow u v ∧
        xget st.height u = xget st.height v + 1
    · rw [if_pos hguard] at hsnd
      rw [pushPass_snd_true] at hsnd
      cases hsnd
    · rw [if_neg hguard] at hsnd
      rcases List.mem_cons.mp hvc with h | h
      · subst h
        exact hguard
      · exact ih st hsnd hex vc h

theorem dischargeBody_eq (g : Graph) (st : PPState) (u : Node) :
    dischargeBody g st u =
      if (pushPass g u st false (gget g u)).2 = false ∧
          0 < xget (pushPass g u st false (gget g u)).1.excess u
      then ppRelabel g (pushPass g u st false (gget g u)).1 u
      else (pushPass g u st false (gget g u)).1 := rfl

theorem dischargeBody_facts {g : Graph} {source : Node} {st : PPState} {u : Node}
    (hval : PPValid g) (hE : ExcessInv g source st) (hH : HeightsInv g st) :
    ExcessInv g source (dischargeBody g st u) ∧
    HeightsInv g (dischargeBody g st u) ∧
    ∀ w, xget st.height w ≤ xget (dischargeBody g st u).height w := by
  obtain ⟨r1, r2, r3⟩ :=
    pushPass_facts hval u (gget g u) st false (fun q hq => hq) hE hH
  rw [dischargeBody_eq]
  by_cases hc : (pushPass g u st false (gget g u)).2 = false ∧
      0 < xget (pushPass g u st false (gget g u)).1.excess u
  · rw [if_pos hc]
    have hst : (pushPass g u st false (gget g u)).1 = st :=
      pushPass_false_state g u (gget g u) st hc.1
    have hex : 0 < xget st.excess u := by
      have := hc.2
      rw [hst] at this
      exact this
    rw [hst]
    have hnog := pushPass_false_noguard g u (gget g u) st hc.1 hex
    obtain ⟨m1, m2, m3⟩ := ppRelabel_facts hH hnog
    refine ⟨?_, m2, fun w => m1 w⟩
    intro w hw
    rw [ppRelabel_excess_eq, sumFlow]
    simp only [ppRelabel_flow_eq]
    exact hE w hw
  · rw [if_neg hc]
    exact ⟨r2, r3, fun w => le_of_eq (by rw [r1])⟩

theorem residual_neighbor_of_excess {g : Graph} {source : Node} {st : PPState}
    {u : Node} (hval : PPValid g) (hE : ExcessInv g source st) (hu : u ≠ source)
    (hex : 0 < xget st.excess u) :
    ∃ vc ∈ gget g u, 0 < vc.2 - fget st.flow u vc.1 := by
  have hneg : ((gget g u).map (fun vc => fget st.flow u vc.1)).sum < 0 := by
    have h := hE u hu
    rw [sumFlow] at h
    omega
  obtain ⟨vc, hvc, hfneg⟩ := neg_entry_of_sum_neg hneg
  refine ⟨vc, hvc, ?_⟩
  have := nonneg_of_mem_adj hval.2.2.1 hvc
  omega

/-- One step of the `_initialize_preflow` fold, named for the induction. -/
def initStep (source : Node) (st : PPState) (vc : Node × Int) : PPState :=
  if 0 < vc.2 then
    { st with
      flow := fset (fset st.flow source vc.1 vc.2) vc.1 source (-vc.2)
      excess := xset (xset st.excess vc.1 vc.2) source
        (xget (xset st.excess vc.1 vc.2) source - vc.2) }
  else st

theorem initPreflow_eq (g : Graph) (source : Node) :
    initPreflow g source = (gget g source).foldl (initStep source)
      { flow := [], excess := [], height := xset [] source (gkeys g).length } := rfl

theorem foldl_initStep_height :
    ∀ (l : List (Node × Int)) (source : Node) (st : PPState),
      (l.foldl (initStep source) st).height = st.height := by
  intro l
  induction l with
  | nil => intro source st; rfl
  | cons vc rest ih =>
    intro source st
    rw [List.foldl_cons, ih]
    rw [initStep]
    by_cases h : 0 < vc.2
    · rw [if_pos h]
    · rw [if_neg h]

theorem initPreflow_height (g : Graph) (source : Node) :
    (initPreflow g source).height = xset [] source (gkeys g).length := by
  rw [initPreflow_eq]
  exact foldl_initStep_height _ _ _

theorem nodup_keys_val_eq {β : Type} :
    ∀ {l : List (Node × β)}, (l.map Prod.fst).Nodup →
      ∀ {a : Node} {b c : β}, (a, b) ∈ l → (a, c) ∈ l → b = c := by
  intro l
  induction l with
  | nil => intro _ a b c hb; simp at hb
  | cons p rest ih =>
    intro hnd a b c hb hc
    simp only [List.map_cons, List.nodup_cons] at hnd
    rcases List.mem_cons.mp hb with h1 | h1
    · rcases List.mem_cons.mp hc with h2 | h2
      · exact (Prod.mk.inj (h2.trans h1.symm)).2.symm
      · exfalso
        apply hnd.1
        rw [← h1]
        exact List.mem_map.mpr ⟨(a, c), h2, rfl⟩
    · rcases List.mem_cons.mp hc with h2 | h2
      · exfalso
        apply hnd.1
        rw [← h2]
        exact List.mem_map.mpr ⟨(a, b), h1, rfl⟩
      · exact ih hnd.2 h1 h2

theorem initFold_inv (source : Node) (n : Nat) :
    ∀ (rest p : List (Node × Int)) (st : PPState),
      (((p ++ rest).map Prod.fst).Nodup) →
      st.height = xset [] source n →
      (∀ x y, x ≠ source → y ≠ source → fget st.flow x y = 0) →
      (∀ vc ∈ p, 0 < vc.2 → vc.1 ≠ source →
        fget st.flow source vc.1 = vc.2 ∧ fget st.flow vc.1 source = -vc.2 ∧
        xget st.excess vc.1 = vc.2) →
      (∀ y, y ≠ source → (∀ c, (y, c) ∈ p → ¬0 < c) →
        fget st.flow source y = 0 ∧ fget st.flow y source = 0 ∧
        xget st.excess y = 0) →
      ((rest.foldl (initStep source) st).height = xset [] source n ∧
       (∀ x y, x ≠ source → y ≠ source →
         fget (rest.foldl (initStep source) st).flow x y = 0) ∧
       (∀ vc ∈ p ++ rest, 0 < vc.2 → vc.1 ≠ source →
         fget (rest.foldl (initStep source) st).flow source vc.1 = vc.2 ∧
         fget (rest.foldl (initStep source) st).flow vc.1 source = -vc.2 ∧
         xget (rest.foldl (initStep source) st).excess vc.1 = vc.2) ∧
       (∀ y, y ≠ source → (∀ c, (y, c) ∈ p ++ rest → ¬0 < c) →
         fget (rest.foldl (initStep source) st).flow source y = 0 ∧
         fget (rest.foldl (initStep source) st).flow y source = 0 ∧
         xget (rest.foldl (initStep source) st).excess y = 0)) := by
  intro rest
  induction rest with
  | nil =>
    intro p st hnd hh h2 h3 h4
    simp only [List.foldl_nil, List.append_nil]
    exact ⟨hh, h2, h3, h4⟩
  | cons vc0 rest' ih =>
    intro p st hnd hh h2 h3 h4
    have hfresh : vc0.1 ∉ p.map Prod.fst := by
      rw [List.map_append] at hnd
      obtain ⟨-, -, hdisj⟩ := List.nodup_append.mp hnd
      intro hm
      exact hdisj hm (by simp)
    have hnd' : (((p ++ [vc0]) ++ rest').map Prod.fst).Nodup := by
      rw [List.append_assoc, List.singleton_append]
      exact hnd
    rw [List.foldl_cons,
      show p ++ vc0 :: rest' = (p ++ [vc0]) ++ rest' from by
        rw [List.append_assoc, List.singleton_append]]
    by_cases hpos : 0 < vc0.2
    · have hfl : (initStep source st vc0).flow =
          fset (fset st.flow source vc0.1 vc0.2) vc0.1 source (-vc0.2) := by
        rw [initStep, if_pos hpos]
      have hexc : (initStep source st vc0).excess =
          xset (xset st.excess vc0.1 vc0.2) source
            (xget (xset st.excess vc0.1 vc0.2) source - vc0.2) := by
        rw [initStep, if_pos hpos]
      have hht : (initStep source st vc0).height = st.height := by
        rw [initStep, if_pos hpos]
      apply ih (p ++ [vc0]) (initStep source st vc0) hnd'
      · rw [hht]
        exact hh
      · intro x y hx hy
        rw [hfl, fget_fset_ne _ _ (fun hq => hy (Prod.mk.inj hq).2),
          fget_fset_ne _ _ (fun hq => hx (Prod.mk.inj hq).1)]
        exact h2 x y hx hy
      · intro vc hvc hp hs
        rcases List.mem_append.mp hvc with hin | hin
        · obtain ⟨o1, o2, o3⟩ := h3 vc hin hp hs
          have hne : vc.1 ≠ vc0.1 := fun hq =>
            hfresh (hq ▸ List.mem_map_of_mem Prod.fst hin)
          refine ⟨?_, ?_, ?_⟩
          · rw [hfl, fget_fset_ne _ _ (fun hq => hs (Prod.mk.inj hq).2),
              fget_fset_ne _ _ (fun hq => hne (Prod.mk.inj hq).2)]
            exact o1
          · rw [hfl, fget_fset_ne _ _ (fun hq => hne (Prod.mk.inj hq).1),
              fget_fset_ne _ _ (fun hq => hs (Prod.mk.inj hq).1)]
            exact o2
          · rw [hexc, xget_xset_ne _ _ hs, xget_xset_ne _ _ hne]
            exact o3
        · have hvq : vc = vc0 := by simpa using hin
          subst hvq
          refine ⟨?_, ?_, ?_⟩
          · rw [hfl, fget_fset_ne _ _ (fun hq => hs (Prod.mk.inj hq).2),
              fget_fset_self]
          · rw [hfl, fget_fset_self]
          · rw [hexc, xget_xset_ne _ _ hs, xget_xset_self]
      · intro y hy hcond
        have hyne : y ≠ vc0.1 := by
          intro hq
          exact hcond vc0.2 (by rw [hq]; simp) hpos
        obtain ⟨o1, o2, o3⟩ :=
          h4 y hy (fun c hc => hcond c (List.mem_append_left _ hc))
        refine ⟨?_, ?_, ?_⟩
        · rw [hfl, fget_fset_ne _ _ (fun hq => hy (Prod.mk.inj hq).2),
            fget_fset_ne _ _ (fun hq => hyne (Prod.mk.inj hq).2)]
          exact o1
        · rw [hfl, fget_fset_ne _ _ (fun hq => hyne (Prod.mk.inj hq).1),
            fget_fset_ne _ _ (fun hq => hy (Prod.mk.inj hq).1)]
          exact o2
        · rw [hexc, xget_xset_ne _ _ hy, xget_xset_ne _ _ hyne]
          exact o3
    · have hid : initStep source st vc0 = st := by
        rw [initStep, if_neg hpos]
      rw [hid]
      apply ih (p ++ [vc0]) st hnd' hh h2
      · intro vc hvc hp hs
        rcases List.mem_append.mp hvc with hin | hin
        · exact h3 vc hin hp hs
        · have hvq : vc = vc0 := by simpa using hin
          subst hvq
          exact absurd hp hpos
      · intro y hy hcond
        exact h4 y hy (fun c hc => hcond c (List.mem_append_left _ hc))

theorem initPreflow_inv {g : Graph} {source : Node} (hval : PPValid g) :
    ExcessInv g source (initPreflow g source) ∧
    HeightsInv g (initPreflow g source) := by
  obtain ⟨hK, hA, hG, hS⟩ := hval
  have hnd : ((gget g source).map Prod.fst).Nodup := adjNodup_gget hA source
  obtain ⟨i1, i2, i3, i4⟩ := initFold_inv source (gkeys g).length (gget g source) []
    { flow := [], excess := [], height := xset [] source (gkeys g).length }
    (by simpa using hnd) rfl (fun x y _ _ => rfl)
    (fun vc hvc => absurd hvc (List.not_mem_nil vc))
    (fun y _ _ => ⟨rfl, rfl, rfl⟩)
  rw [← initPreflow_eq] at i1 i2 i3 i4
  simp only [List.nil_append] at i3 i4
  constructor
  · intro w hw
    by_cases hpos : ∃ c, (w, c) ∈ gget g source ∧ 0 < c
    · obtain ⟨c, hcm, hcpos⟩ := hpos
      obtain ⟨f1, f2, f3⟩ := i3 (w, c) hcm hcpos hw
      rw [f3, sumFlow]
      have hpp : PairPresent g w source := hS source w (pairPresent_of_mem_adj hcm)
      have hsm : source ∈ (gget g w).map Prod.fst := by
        rw [PairPresent] at hpp
        cases hq : aget (gget g w) source with
        | none => rw [hq] at hpp; simp at hpp
        | some x => exact List.mem_map.mpr ⟨(source, x), mem_of_aget hq, rfl⟩
      have hsum : ((gget g w).map
            (fun vc => fget (initPreflow g source).flow w vc.1)).sum =
          ((gget g w).map (fun vc => (0 : Int))).sum + (-c) := by
        apply sum_map_add_once (gget g w) (fun _ => (0 : Int))
          (fun x => fget (initPreflow g source).flow w x) source (-c)
          (adjNodup_gget hA w) hsm
        · intro x hx hxs
          exact i2 w x hw hxs
        · rw [f2]
          ring
      rw [hsum]
      have hzero : ((gget g w).map (fun vc => (0 : Int))).sum = 0 := by simp
      rw [hzero]
      ring
    · push_neg at hpos
      obtain ⟨f1, f2, f3⟩ := i4 w hw (fun c hc => by have := hpos c hc; omega)
      rw [f3, sumFlow]
      have hzero : ((gget g w).map
            (fun vc => fget (initPreflow g source).flow w vc.1)).sum =
          ((gget g w).map (fun vc => (0 : Int))).sum := by
        refine @sum_map_congr (gget g w) (fun _ => (0 : Int))
          (fun x => fget (initPreflow g source).flow w x) ?_
        intro x hx
        by_cases hxs : x = source
        · rw [hxs]
          exact f2
        · exact i2 w x hw hxs
      rw [hzero]
      simp
  · intro w vc hvc hres
    rw [initPreflow_height]
    have hx : ∀ z, xget (xset ([] : List (Node × Nat)) source (gkeys g).length) z =
        if source = z then (gkeys g).length else 0 := fun z => rfl
    rw [hx w, hx vc.1]
    by_cases hws : source = w
    · rw [if_pos hws]
      by_cases hvs : source = vc.1
      · rw [if_pos hvs]
        omega
      · rw [if_neg hvs]
        exfalso
        rw [← hws] at hvc hres
        by_cases hvp : 0 < vc.2
        · obtain ⟨f1, -, -⟩ := i3 vc hvc hvp (fun hq => hvs hq.symm)
          rw [f1] at hres
          omega
        · have hvc2 : (vc.1, vc.2) ∈ gget g source := by
            rw [Prod.mk.eta]
            exact hvc
          obtain ⟨f1, -, -⟩ := i4 vc.1 (fun hq => hvs hq.symm) (fun c hc => by
            have hceq : c = vc.2 := nodup_keys_val_eq hnd hc hvc2
            omega)
          rw [f1] at hres
          omega
    · rw [if_neg hws]
      exact Nat.zero_le _

theorem ppReach_inv {g : Graph} {source sink : Node} {st : PPState}
    (hval : PPValid g) (h : PPReach g source sink st) :
    ExcessInv g source st ∧ HeightsInv g st := by
  induction h with
  | init => exact initPreflow_inv hval
  | step hr hu hs hex ih =>
    obtain ⟨d1, d2, -⟩ := dischargeBody_facts hval ih.1 ih.2
    exact ⟨d1, d2⟩

/-! ## Concrete graphs and helpers for the claim theorems -/

/-- The diamond capacity graph as `load_graph` builds it from the lines
`s a 10`, `s b 10`, `a t 10`, `b t 10` (insertion order of the dicts). -/
def gD : Graph := [("s", [("a", 10), ("b", 10)]), ("a", [("s", 0), ("t", 10)]),
  ("b", [("s", 0), ("t", 10)]), ("t", [("a", 0), ("b", 0)])]

/-- A one-edge capacity graph with its reverse arc, for the skew-symmetry
witness. -/
def gC3 : Graph := [("s", [("t", 5)]), ("t", [("s", 0)])]

/-- A graph whose source has outgoing capacities 5 and 3, for the
initial-delta witness. -/
def gC5 : Graph := [("s", [("a", 5), ("b", 3)])]

/-- A small valid preflow-push graph: s -> a (2), a -> t (3), with reverse
arcs. -/
def gW : Graph := [("s", [("a", 2)]), ("a", [("s", 0), ("t", 3)]), ("t", [("a", 0)])]

/-- The exact condition under which `_discharge` calls `_relabel(u)`: the
push scan over `u`'s neighbours pushed nothing and the excess of `u` is
still positive. -/
def relabelFires (g : Graph) (st : PPState) (u : Node) : Prop :=
  (pushPass g u st false (gget g u)).2 = false ∧
  0 < xget (pushPass g u st false (gget g u)).1.excess u

instance (g : Graph) : Decidable (AdjNodup g) := by
  unfold AdjNodup
  infer_instance

instance (g : Graph) : Decidable (ClosedGraph g) := by
  unfold ClosedGraph
  infer_instance

instance (g : Graph) : Decidable (KeysNodup g) := by
  unfold KeysNodup
  infer_instance

instance (g : Graph) : Decidable (NonnegCaps g) := by
  unfold NonnegCaps
  infer_instance

/-- `SymPairs` follows from its restriction to the edge entries actually in
the graph, which is decidable for a concrete graph. -/
theorem symPairs_of_adj (g : Graph)
    (h1 : ∀ ua ∈ g, ∀ vc ∈ ua.2, PairPresent g vc.1 ua.1) : SymPairs g := by
  intro a b hab
  rw [PairPresent] at hab
  cases hq : aget (gget g a) b with
  | none => rw [hq] at hab; simp at hab
  | some c =>
    cases hga : aget g a with
    | none => rw [gget, hga] at hq; simp [aget] at hq
    | some adj =>
      rw [gget, hga] at hq
      simp only [Option.getD_some] at hq
      exact h1 (a, adj) (mem_of_aget hga) (b, c) (mem_of_aget hq)

/-! ## The claim theorems -/

/-- C1: refuted.  The claim says the three drivers agree on every valid
capacity graph.  `gBad` has non-negative integer capacities and contains the
nodes "s" and "t", the two augmenting-path drivers both return flow 0 on it,
but `PreflowPush.max_flow` never returns: its main loop diverges for every
iteration budget, because the node "b" keeps positive excess and has no
neighbour to push to or to measure a relabel against. -/
theorem C1_drivers_disagree_on_gBad :
    (∀ ua ∈ gBad, ∀ vc ∈ ua.2, 0 ≤ vc.2) ∧
    "s" ∈ gkeys gBad ∧ "t" ∈ gkeys gBad ∧
    fordFulkerson gBad 4 = some 0 ∧
    scalingFordFulkerson gBad 4 = some 0 ∧
    (∀ fuel, ppMaxFlow gBad "s" "t" fuel = none) := by
  have hd : compute_initial_delta gBad = some 1 := by
    rw [show compute_initial_delta gBad = some (deltaLoop 1 1 one_pos) from rfl,
      deltaLoop_of_gt one_pos (by omega)]
  have hs : scalingFordFulkerson gBad 4 = scalLoop 4 (buildResidual gBad) 0 1 := by
    simp only [scalingFordFulkerson, hd]
  exact ⟨by decide, by decide, by decide, by decide,
    by rw [hs]; decide, gBad_ppMaxFlow⟩

/-- C2: confirmed.  On any residual graph with duplicate-free adjacency
dicts all of whose edges stay inside the key set, `augmentedPath` terminates
(for a sufficient iteration budget) and returns `(None, 0)` exactly when no
s-to-t path of strictly positive residual capacities exists; otherwise the
returned edge-pair sequence is a path from `s` to `t` with positive residual
capacity on every edge, and the returned bottleneck is the minimum residual
capacity along it (folded as the search folds it). -/
theorem C2_augmentedPath_contract {g : Graph} {s t : Node}
    (hA : AdjNodup g) (hC : ClosedGraph g) :
    ∃ fuel r, augmentedPath g s t fuel = some r ∧
      (r = (none, Cap.num 0) ↔ ¬PosPath g s t) ∧
      (∀ p b, r = (some p, b) →
        EdgeChain s p t ∧ (∀ e ∈ p, 0 < capAt g e.1 e.2) ∧ b = minCaps g p) := by
  obtain ⟨fuel, r, hr⟩ := augmentedPath_term g s t hC
  have hsound := augmentedPath_sound hA hr
  refine ⟨fuel, r, hr, ?_, ?_⟩
  · constructor
    · intro hnone
      exact (hsound.1 (by rw [hnone])).2
    · intro hno
      obtain ⟨po, b⟩ := r
      cases po with
      | none => exact (hsound.1 rfl).1
      | some p =>
        obtain ⟨hchain, hpos, -⟩ := hsound.2 p b rfl
        exact absurd ⟨p, hchain, hpos⟩ hno
  · intro p b hpb
    obtain ⟨h1, h2, h3, -, -⟩ := hsound.2 p b hpb
    exact ⟨h1, h2, h3⟩

/-- Witness for C2 at the concrete graph `gBad`. -/
theorem C2_augmentedPath_contract_witness :
    AdjNodup gBad ∧ ClosedGraph gBad ∧
    ∃ fuel r, augmentedPath gBad "s" "t" fuel = some r ∧
      (r = (none, Cap.num 0) ↔ ¬PosPath gBad "s" "t") ∧
      (∀ p b, r = (some p, b) →
        EdgeChain "s" p "t" ∧ (∀ e ∈ p, 0 < capAt gBad e.1 e.2) ∧
        b = minCaps gBad p) :=
  ⟨by decide, by decide, C2_augmentedPath_contract (by decide) (by decide)⟩

/-- C3: confirmed.  The augmentation update of both augmenting-path drivers
(`residualgraph[u][v] -= flow; residualgraph[v][u] += flow` over the path
edges) preserves the sum of the two residual capacities of every ordered
pair of nodes whose entries are present in both directions. -/
theorem C3_skew_symmetry {g : Graph} {p : List (Node × Node)} {d : Int}
    (hp : ∀ e ∈ p, PairPresent g e.1 e.2 ∧ PairPresent g e.2 e.1) (u v : Node) :
    capAt (augment g p d) u v + capAt (augment g p d) v u =
      capAt g u v + capAt g v u := by
  rw [capAt_augment hp u v, capAt_augment hp v u]
  ring

/-- Witness for C3: augmenting 5 units over the single-edge path on `gC3`. -/
theorem C3_skew_symmetry_witness :
    (∀ e ∈ [(("s" : Node), ("t" : Node))],
      PairPresent gC3 e.1 e.2 ∧ PairPresent gC3 e.2 e.1) ∧
    capAt (augment gC3 [("s", "t")] 5) "s" "t" +
      capAt (augment gC3 [("s", "t")] 5) "t" "s" =
      capAt gC3 "s" "t" + capAt gC3 "t" "s" :=
  ⟨by decide, C3_skew_symmetry (by decide) "s" "t"⟩

/-- C4: refuted for the driver the claim cites.  `load_graph` turns the four
diamond lines into `gD`, and the `fordFulkerson` of
FordFulkerson/FordFulkerson.py — whose argument aliases the module-global
`graph`, so its build loop empties each adjacency dict before copying it —
returns flow 0 with 0 augmenting paths instead of 20 with 2.  The
non-aliased driver of src/Algorithms/FordFulkerson.py does return 20. -/
theorem C4_diamond_aliasing_bug :
    load_graph ["s a 10", "s b 10", "a t 10", "b t 10"] = Except.ok (gD, 4, 4) ∧
    ffAliased gD 3 = some (0, 0) ∧
    fordFulkerson gD 6 = some 20 :=
  ⟨rfl, by decide, by decide⟩

/-- C5: refuted as stated, and amended.  When the source's value list is
non-empty with maximum `maxcap ≥ 1`, `compute_initial_delta` does return the
largest power of two not exceeding `maxcap`.  But when no outgoing capacity
is positive it returns 1, not 0 (shown on a graph whose "s" row is
`{"a": 0}`), and when the key "s" is absent it raises a `KeyError` rather
than returning anything. -/
theorem C5_initial_delta {g : Graph} {adjs : Adj} {c : Int} {cs : List Int}
    (hs : aget g "s" = some adjs) (hmap : adjs.map Prod.snd = c :: cs)
    (hpos : 1 ≤ cs.foldl max c) :
    ∃ m : Nat, compute_initial_delta g = some ((2 : Int) ^ m) ∧
      (2 : Int) ^ m ≤ cs.foldl max c ∧ cs.foldl max c < (2 : Int) ^ (m + 1) := by
  have heq : compute_initial_delta g =
      some (deltaLoop (cs.foldl max c) 1 one_pos) := by
    simp only [compute_initial_delta, hs, hmap]
  obtain ⟨hA, hB, m, hm⟩ := deltaLoop_reaches (cs.foldl max c)
    (cs.foldl max c - 1).toNat 1 one_pos (by omega) hpos
  rw [hm, one_mul] at hA hB
  refine ⟨m, ?_, hA, ?_⟩
  · rw [heq, hm, one_mul]
  · rw [pow_succ]
    exact hB

/-- Counterexample for C5: on a graph whose "s" row is `{"a": 0}` (no
positive outgoing capacity) the function returns 1, not 0; and when the key
"s" is absent it raises instead of returning anything. -/
theorem C5_initial_delta_counterexample :
    compute_initial_delta [("a", [("s", 3)]), ("s", [("a", 0)])] = some 1 ∧
    compute_initial_delta [("a", [("s", 3)])] = none := by
  refine ⟨?_, rfl⟩
  rw [show compute_initial_delta [("a", [("s", 3)]), ("s", [("a", 0)])] =
      some (deltaLoop 0 1 one_pos) from rfl,
    deltaLoop_of_gt one_pos (by omega)]

/-- Witness for C5 at `gC5`, whose source capacities are 5 and 3. -/
theorem C5_initial_delta_witness :
    aget gC5 "s" = some [("a", 5), ("b", 3)] ∧
    ([(("a" : Node), (5 : Int)), ("b", 3)].map Prod.snd = [5, 3]) ∧
    (1 : Int) ≤ [(3 : Int)].foldl max 5 ∧
    (∃ m : Nat, compute_initial_delta gC5 = some ((2 : Int) ^ m) ∧
      (2 : Int) ^ m ≤ [(3 : Int)].foldl max 5 ∧
      [(3 : Int)].foldl max 5 < (2 : Int) ^ (m + 1)) :=
  ⟨rfl, rfl, by decide,
    @C5_initial_delta gC5 [("a", 5), ("b", 3)] 5 [3] rfl rfl (by decide)⟩

/-- C6: refuted, and amended.  `load_graph` performs no capacity validation
at all: the line `s t -5` is accepted and the negative edge is stored in the
returned graph — no `InvalidEdgeError` exists and nothing fails before the
algorithms start.  In general every file of well-formed three-token lines
with integer third token loads successfully, whatever the capacity signs. -/
theorem C6_no_negative_capacity_check (lines : List String)
    (h : ∀ l ∈ lines, cleanLine l = true) :
    ∃ res, load_graph lines = Except.ok res :=
  loadLoop_clean_ok lines 0 [] 0 h

/-- Counterexample for C6: the line `s t -5` is accepted and the negative
edge is stored in the returned graph; no error of any kind is raised. -/
theorem C6_no_negative_capacity_check_counterexample :
    load_graph ["s t -5"] =
      Except.ok ([("s", [("t", -5)]), ("t", [("s", 0)])], 2, 1) := rfl

/-- Witness for C6: the single negative-capacity line is clean and loads. -/
theorem C6_no_negative_capacity_check_witness :
    (∀ l ∈ ["s t -5"], cleanLine l = true) ∧
    ∃ res, load_graph ["s t -5"] = Except.ok res :=
  ⟨by decide, C6_no_negative_capacity_check ["s t -5"] (by decide)⟩

/-- C7: refuted as stated, and amended.  When node `u` has positive excess
and no neighbour with positive residual capacity, `_relabel(u)` is a silent
no-op — but nothing detects the state and no `AlgorithmInvariantError` is
raised: `_discharge(u)` loops forever (it completes under no iteration
budget). -/
theorem C7_relabel_noop_discharge_diverges {g : Graph} {st : PPState} {u : Node}
    (h : ∀ vc ∈ gget g u, ¬(0 < vc.2 - fget st.flow u vc.1))
    (hex : 0 < xget st.excess u) :
    ppRelabel g st u = st ∧ ∀ n, discharge g n st u = none :=
  ⟨ppRelabel_noop g st u h, discharge_stuck g st u h hex⟩

/-- Counterexample for C7: on `gBad`, the run reaches the state `ppBad2`
where "b" has excess 1 and no neighbour at all; the relabel there is a
no-op and the discharge of "b" never terminates. -/
theorem C7_relabel_noop_discharge_diverges_counterexample :
    ppRelabel gBad ppBad2 "b" = ppBad2 ∧
    0 < xget ppBad2.excess "b" ∧
    ∀ n, discharge gBad n ppBad2 "b" = none :=
  ⟨ppRelabel_noop gBad ppBad2 "b" (by decide), by decide,
    gBad_discharge_b ppBad2 (by decide)⟩

/-- Witness for C7: the state `ppBad2` that the preflow-push run on `gBad`
actually reaches, at the node "b". -/
theorem C7_relabel_noop_discharge_diverges_witness :
    (∀ vc ∈ gget gBad "b", ¬(0 < vc.2 - fget ppBad2.flow "b" vc.1)) ∧
    0 < xget ppBad2.excess "b" ∧
    (ppRelabel gBad ppBad2 "b" = ppBad2 ∧
      ∀ n, discharge gBad n ppBad2 "b" = none) :=
  ⟨by decide, by decide,
    C7_relabel_noop_discharge_diverges (by decide) (by decide)⟩

/-- C8: confirmed.  Along every state a preflow-push run reaches on a valid
graph: the initialization sets the source's height to the number of nodes
and every other height to 0; one discharge iteration never decreases any
node's height; whenever `_discharge` actually calls `_relabel(u)` (no push
happened and the excess of the non-source node `u` is still positive), the
height of `u` strictly increases; and a push never modifies any height. -/
theorem C8_heights_never_decrease {g : Graph} {source sink : Node} {st : PPState}
    (hval : PPValid g) (hreach : PPReach g source sink st) :
    (∀ w, xget (initPreflow g source).height w =
      if source = w then (gkeys g).length else 0) ∧
    (∀ u w, xget st.height w ≤ xget (dischargeBody g st u).height w) ∧
    (∀ u, u ≠ source → relabelFires g st u →
      xget st.height u < xget (ppRelabel g st u).height u) ∧
    (∀ st2 u v, (ppPush g st2 u v).height = st2.height) := by
  obtain ⟨hE, hH⟩ := ppReach_inv hval hreach
  refine ⟨?_, ?_, ?_, ?_⟩
  · intro w
    rw [initPreflow_height]
    rfl
  · intro u w
    exact (@dischargeBody_facts g source st u hval hE hH).2.2 w
  · intro u hu hfires
    obtain ⟨hf1, hf2⟩ := hfires
    have hst : (pushPass g u st false (gget g u)).1 = st :=
      pushPass_false_state g u (gget g u) st hf1
    have hex : 0 < xget st.excess u := by
      rw [hst] at hf2
      exact hf2
    have hnog := pushPass_false_noguard g u (gget g u) st hf1 hex
    obtain ⟨vc, hvc, hres⟩ := residual_neighbor_of_excess hval hE hu hex
    exact (ppRelabel_facts hH hnog).2.2 ⟨vc, hvc, hres⟩
  · intro st2 u v
    exact ppPush_height_eq g st2 u v

/-- Witness for C8 at `gW` and its initial preflow. -/
theorem C8_heights_never_decrease_witness :
    PPValid gW ∧
    (∀ st2 u v, (ppPush gW st2 u v).height = st2.height) ∧
    (∀ u w, xget (initPreflow gW "s").height w ≤
      xget (dischargeBody gW (initPreflow gW "s") u).height w) := by
  have hval : PPValid gW :=
    ⟨by decide, by decide, by decide, symPairs_of_adj gW (by decide)⟩
  obtain ⟨-, h2, -, h4⟩ :=
    C8_heights_never_decrease hval (@PPReach.init gW "s" "t")
  exact ⟨hval, h4, h2⟩

/-- C9: confirmed.  If every line before position `j` is well-formed and
line `j` does not split into exactly three whitespace-separated tokens,
`load_graph` returns the parse error carrying the 1-based line number
`j + 1` and the stripped raw line — and, being an error, no graph (partial
or complete) is returned. -/
theorem C9_parse_error_line_number {lines : List String} {j : Nat}
    (hj : j < lines.length)
    (hclean : ∀ k (hk : k < j), cleanLine (lines.get ⟨k, by omega⟩) = true)
    (hbad : (pysplit (lines.get ⟨j, hj⟩)).length ≠ 3) :
    load_graph lines =
      Except.error (LoadErr.parse (j + 1) (lines.get ⟨j, hj⟩).trim) := by
  have h := loadLoop_firstbad lines 0 [] 0 j hj hclean hbad
  rw [show (0 : Nat) + j + 1 = j + 1 from by omega] at h
  exact h

/-- Witness for C9: the two-token line `a b` on 1-based line 2. -/
theorem C9_parse_error_line_number_witness :
    (pysplit ((["s a 3", "a b"] : List String).get ⟨1, by decide⟩)).length ≠ 3 ∧
    load_graph ["s a 3", "a b"] =
      Except.error (LoadErr.parse 2
        ((["s a 3", "a b"] : List String).get ⟨1, by decide⟩).trim) :=
  ⟨by decide, C9_parse_error_line_number (by decide) (by decide) (by decide)⟩

/-- C10: confirmed.  Starting from any well-formed input capacity graph
with non-negative capacities, every graph the Ford-Fulkerson driver reaches
— the built residual graph and the result of each augmentation it performs
— has only non-negative residual capacities. -/
theorem C10_residuals_stay_nonneg {g0 : Graph} (h1 : KeysNodup g0)
    (h2 : AdjNodup g0) (h3 : NonnegCaps g0) :
    ∀ g, FFReach g0 g → NonnegCaps g ∧ ∀ x y, 0 ≤ capAt g x y := by
  intro g hg
  have hinv := ffReach_inv h1 h2 h3 g hg
  exact ⟨hinv.2.2.2.2, capAt_nonneg hinv.2.2.2.2⟩

/-- Witness for C10 at the diamond graph and its built residual graph. -/
theorem C10_residuals_stay_nonneg_witness :
    KeysNodup gD ∧ AdjNodup gD ∧ NonnegCaps gD ∧
    (NonnegCaps (buildResidual gD) ∧ ∀ x y, 0 ≤ capAt (buildResidual gD) x y) :=
  ⟨by decide, by decide, by decide,
    C10_residuals_stay_nonneg (by decide) (by decide) (by decide)
      (buildResidual gD) FFReach.base⟩
